import Mathlib

/-!
Verification of the gmail-job-ads-fetching extraction-and-ingestion pipeline.

JavaScript strings are modelled as lists of characters (`Str`), JavaScript
`Set<string>` as lists with membership semantics, and the asynchronous
orchestrator as a state-passing function with an explicit cancellation
signal.  External platform facilities that the repository code calls but
does not define (the browser's `DOMParser`, base64url decoding, `Date`
formatting) are passed as parameters, so every theorem quantifies over
them.
-/

/-! ## JavaScript string primitives -/

/-- A JavaScript string, modelled as its list of characters. -/
abbrev Str := List Char

/-- `String.prototype.toLowerCase`, character-wise. -/
def jsLower (s : Str) : Str := s.map Char.toLower

/-- `String.prototype.includes(needle)`: substring containment. -/
def isSubstr (needle : Str) : Str → Bool
  | [] => needle.isEmpty
  | c :: t => needle.isPrefixOf (c :: t) || isSubstr needle t

/-- The recursion of `replaceAll`, structurally on a fuel bound (the
fuel never runs out when it starts at the string's length; the explicit
bound keeps the definition computable by the kernel). -/
def replaceAllGo (pat rep : Str) : Nat → Str → Str
  | _, [] => []
  | 0, s => s
  | fuel + 1, c :: t =>
    if pat.isPrefixOf (c :: t) ∧ pat ≠ [] then
      rep ++ replaceAllGo pat rep fuel ((c :: t).drop pat.length)
    else
      c :: replaceAllGo pat rep fuel t

/-- `String.prototype.replace(/pat/g, rep)` for a fixed plain pattern:
left-to-right, non-overlapping, the replacement is not rescanned. -/
def replaceAll (pat rep : Str) (s : Str) : Str :=
  replaceAllGo pat rep s.length s

/-- The character class of the JavaScript regex `\s` (also the set trimmed
by `String.prototype.trim`). -/
def isJsWs (c : Char) : Bool :=
  let n := c.toNat
  n = 0x20 || n = 0x9 || n = 0xa || n = 0xd || n = 0xb || n = 0xc ||
  n = 0xa0 || n = 0x1680 || (0x2000 <= n && n <= 0x200a) ||
  n = 0x2028 || n = 0x2029 || n = 0x202f || n = 0x205f ||
  n = 0x3000 || n = 0xfeff

/-- The recursion of `collapseWs`, structurally on a fuel bound. -/
def collapseWsGo : Nat → Str → Str
  | _, [] => []
  | 0, s => s
  | fuel + 1, c :: t =>
    if isJsWs c then ' ' :: collapseWsGo fuel (t.dropWhile isJsWs)
    else c :: collapseWsGo fuel t

/-- `.replace(/\s+/g, ' ')`: collapse every run of whitespace to one space. -/
def collapseWs (s : Str) : Str :=
  collapseWsGo s.length s

/-- `String.prototype.trim`. -/
def jsTrim (s : Str) : Str :=
  ((s.dropWhile isJsWs).reverse.dropWhile isJsWs).reverse

/-- The recursion of `wsWords`, structurally on a fuel bound. -/
def wsWordsGo : Nat → Str → List Str
  | _, [] => []
  | 0, _ => []
  | fuel + 1, c :: t =>
    if isJsWs c then wsWordsGo fuel t
    else ((c :: t).takeWhile fun x => !isJsWs x) ::
      wsWordsGo fuel ((c :: t).dropWhile fun x => !isJsWs x)

/-- The maximal whitespace-free words of a string, in order. -/
def wsWords (s : Str) : List Str :=
  wsWordsGo s.length s

/-- "Collapses runs of whitespace to a single space, trims", read as a
whole: the whitespace-free words joined by single spaces. -/
def normalizeWsSpec (s : Str) : Str :=
  List.intercalate " ".data (wsWords s)


/-! ## `src/parsers/utils.ts` — text normalization -/

/-- `cleanText` (src/parsers/utils.ts:16-26): unescape `&amp; &lt; &gt;
&quot; &#39; &nbsp;` in that order, collapse whitespace runs, trim. -/
def cleanText (text : Str) : Str :=
  jsTrim (collapseWs
    (replaceAll "&nbsp;".data " ".data
      (replaceAll "&#39;".data "\x27".data
        (replaceAll "&quot;".data "\"".data
          (replaceAll "&gt;".data ">".data
            (replaceAll "&lt;".data "<".data
              (replaceAll "&amp;".data "&".data text)))))))

/-- The spec's description of `CleanText` (spec §4.1): unescapes exactly
the five common HTML entities (`&amp; &lt; &gt; &quot; &#39;`), collapses
runs of whitespace to a single space, trims.  The collapse-and-trim step
is read as a whole: the whitespace-delimited words joined by single
spaces (`normalizeWsSpec`). -/
def cleanTextSpec (text : Str) : Str :=
  normalizeWsSpec
    (replaceAll "&#39;".data "\x27".data
      (replaceAll "&quot;".data "\"".data
        (replaceAll "&gt;".data ">".data
          (replaceAll "&lt;".data "<".data
            (replaceAll "&amp;".data "&".data text)))))

/-- The spec's `CleanText` amended by the counterexample: the code
additionally unescapes `&nbsp;` (to a space) after the five entities. -/
def cleanTextSpecAmended (text : Str) : Str :=
  normalizeWsSpec
    (replaceAll "&nbsp;".data " ".data
      (replaceAll "&#39;".data "\x27".data
        (replaceAll "&quot;".data "\"".data
          (replaceAll "&gt;".data ">".data
            (replaceAll "&lt;".data "<".data
              (replaceAll "&amp;".data "&".data text))))))

/-! ## `src/services/jobService.ts` — dedup cache -/

/-- A persisted job as read back by `getAllJobs` (src/services/jobService.ts:69-88).
Only the fields the dedup cache consults are modelled with content. -/
structure Job where
  id : Str
  title : Str
  company : Str
  location : Str
  url : Str
  source : Str
  type : Str
  tags : List Str
deriving DecidableEq, Repr

/-- A candidate job about to be persisted (`NewJob` in src/types). -/
structure NewJob where
  title : Str
  company : Str
  location : Str
  url : Str
  source : Str
  type : Str
  tags : List Str
  emailId : Str
  dateReceived : Str
deriving DecidableEq, Repr

/-- `MAX_URL_LENGTH` (src/services/jobService.ts:203). -/
def MAX_URL_LENGTH : Nat := 1400

/-- `truncateUrl` (src/services/jobService.ts:205-207). -/
def truncateUrl (url : Str) : Str :=
  if url.length > MAX_URL_LENGTH then url.take MAX_URL_LENGTH else url

/-- The dedup key for the title/company pair, exactly as the code builds
it: `` `${title}|${company}` `` (src/services/jobService.ts:219,227,233). -/
def tcKey (title company : Str) : Str := title ++ '|' :: company

/-- `DedupCache` (src/services/jobService.ts:209-235).  The two JavaScript
`Set<string>`s are modelled as lists with membership semantics. -/
structure DedupCache where
  urls : List Str
  titleCompany : List Str
deriving DecidableEq, Repr

/-- `DedupCache.has` (src/services/jobService.ts:225-229). -/
def DedupCache.hasJob (c : DedupCache) (job : NewJob) : Bool :=
  if c.urls.contains (truncateUrl job.url) then true
  else if c.titleCompany.contains (tcKey job.title job.company) then true
  else false

/-- `DedupCache.add` (src/services/jobService.ts:231-234). -/
def DedupCache.addJobKeys (c : DedupCache) (job : NewJob) : DedupCache :=
  { urls := truncateUrl job.url :: c.urls
    titleCompany := tcKey job.title job.company :: c.titleCompany }

/-- One step of `DedupCache.fromJobs`'s loop body (src/services/jobService.ts:216-221):
add the url if truthy, and the title/company key when both are truthy. -/
def fromJobsStep (c : DedupCache) (job : Job) : DedupCache :=
  let c1 := if job.url ≠ [] then { c with urls := job.url :: c.urls } else c
  if job.title ≠ [] ∧ job.company ≠ [] then
    { c1 with titleCompany := tcKey job.title job.company :: c1.titleCompany }
  else c1

/-- `DedupCache.fromJobs`'s loop (src/services/jobService.ts:214-223). -/
def fromJobsAux : List Job → DedupCache → DedupCache
  | [], c => c
  | j :: rest, c => fromJobsAux rest (fromJobsStep c j)

/-- `DedupCache.fromJobs` (src/services/jobService.ts:214-223). -/
def DedupCache.fromJobs (jobs : List Job) : DedupCache :=
  fromJobsAux jobs ⟨[], []⟩

/-- The `safeJob` built by `addJobIfNotExists`
(src/services/jobService.ts:238): the candidate with its url truncated. -/
def safeJob (jobData : NewJob) : NewJob :=
  { jobData with url := truncateUrl jobData.url }

/-- `addJobIfNotExists` with a cache (src/services/jobService.ts:237-244),
with the Firestore `addJob` call assumed to succeed: returns whether a new
job was persisted, together with the updated cache. -/
def addJobIfNotExists (cache : DedupCache) (jobData : NewJob) :
    Bool × DedupCache :=
  let safe := safeJob jobData
  if cache.hasJob safe then (false, cache)
  else (true, cache.addJobKeys safe)

/-- The Saving phase's loop over candidates
(src/hooks/useFetchEmails.ts:335-346): run `addJobIfNotExists` on each
candidate in order, counting the persisted ones. -/
def savePhase (cache : DedupCache) : List NewJob → DedupCache × Nat
  | [] => (cache, 0)
  | j :: rest =>
    match addJobIfNotExists cache j with
    | (saved, cache') =>
      let (cacheF, n) := savePhase cache' rest
      (cacheF, (if saved then 1 else 0) + n)

/-- `addJobIfNotExists` with a cache and an explicit persistence oracle
(src/services/jobService.ts:237-244): when the candidate is not a dedup
hit, `addJob` is attempted; a rejected persist propagates as an exception
(`Except.error`). `cache.add` runs only after a successful persist. -/
def addJobIfNotExistsE (persistOk : NewJob → Bool) (cache : DedupCache)
    (jobData : NewJob) : Except Unit (Bool × DedupCache) :=
  let safe := safeJob jobData
  if cache.hasJob safe then .ok (false, cache)
  else if persistOk safe then .ok (true, cache.addJobKeys safe)
  else .error ()

/-- The Saving phase's loop with the persistence oracle
(src/hooks/useFetchEmails.ts:335-346): the loop body has no try/catch, so
a rejected persist propagates out of the loop; the `Except.error` payload
carries `newJobsCount` accumulated up to the failure. -/
def savePhaseE (persistOk : NewJob → Bool) (cache : DedupCache) :
    List NewJob → Except Nat (DedupCache × Nat)
  | [] => .ok (cache, 0)
  | j :: rest =>
    match addJobIfNotExistsE persistOk cache j with
    | .ok (saved, cache') =>
      match savePhaseE persistOk cache' rest with
      | .ok (cacheF, n) => .ok (cacheF, (if saved then 1 else 0) + n)
      | .error n => .error ((if saved then 1 else 0) + n)
    | .error () => .error 0

/-! ## `src/parsers/utils.ts` — URL canonicalization

`cleanUrl` calls the platform's WHATWG `URL` class.  The model below
covers the fragment of `URL` parsing/serialization the pipeline
exercises: `scheme://host[/path][?query][#fragment]` with a lowercase
alphabetic scheme, no percent-encoding normalization, no port/credential
handling; `searchParams.delete` removes pairs by name and drops the `?`
when the query becomes empty, as the update steps of the URL standard
prescribe.  Inputs outside this fragment count as parse failures, which
`cleanUrl` maps to the identity. -/

/-- A parsed URL object (the fields of the platform `URL` the code uses). -/
structure UrlObj where
  scheme : Str
  host : Str
  path : Str
  query : Option (List (Str × Str))
  fragment : Option Str
deriving DecidableEq, Repr

/-- Characters allowed in the model's URL scheme. -/
def isSchemeChar (c : Char) : Bool := 'a' ≤ c && c ≤ 'z'

/-- Characters that terminate the host component. -/
def isHostEnd (c : Char) : Bool := c = '/' || c = '?' || c = '#'

/-- Split a string at every occurrence of a separator character. -/
def splitOnChar (ch : Char) : Str → List Str
  | [] => [[]]
  | c :: t =>
    if c = ch then [] :: splitOnChar ch t
    else
      match splitOnChar ch t with
      | [] => [[c]]
      | s :: ss => (c :: s) :: ss

/-- One `name=value` segment of a query string, split at its first `=`;
an empty segment is skipped. -/
def parseQuerySeg (seg : Str) : Option (Str × Str) :=
  if seg = [] then none
  else
    let nm := seg.takeWhile fun c => c ≠ '='
    let rest := seg.drop nm.length
    some (nm, rest.drop 1)

/-- Parse one `application/x-www-form-urlencoded` query string into pairs:
split on `&`, skip empty segments, split each segment at its first `=`. -/
def parseQueryPairs (q : Str) : List (Str × Str) :=
  (splitOnChar '&' q).filterMap parseQuerySeg

/-- Parse a URL string in the modelled fragment. -/
def parseUrl (s : Str) : Option UrlObj :=
  let scheme := s.takeWhile isSchemeChar
  if scheme = [] then none
  else
    let r1 := s.drop scheme.length
    if "://".data.isPrefixOf r1 then
      let r2 := r1.drop 3
      let host := r2.takeWhile (fun c => !isHostEnd c)
      if host = [] then none
      else
        let r3 := r2.drop host.length
        let beforeHash := r3.takeWhile (fun c => c ≠ '#')
        let frag : Option Str :=
          if beforeHash.length = r3.length then none
          else some (r3.drop (beforeHash.length + 1))
        let pathPart := beforeHash.takeWhile (fun c => c ≠ '?')
        let queryOpt : Option (List (Str × Str)) :=
          if pathPart.length = beforeHash.length then none
          else some (parseQueryPairs (beforeHash.drop (pathPart.length + 1)))
        let path := if pathPart = [] then "/".data else pathPart
        some ⟨scheme, host, path, queryOpt, frag⟩
    else none

/-- Serialize a list of query pairs, `name=value` joined by `&`. -/
def serializePairs : List (Str × Str) → Str
  | [] => []
  | [(n, v)] => n ++ '=' :: v
  | (n, v) :: p :: rest => n ++ '=' :: v ++ '&' :: serializePairs (p :: rest)

/-- `URL.prototype.toString` on the modelled fragment. -/
def serializeUrl (u : UrlObj) : Str :=
  u.scheme ++ "://".data ++ u.host ++ u.path ++
  (match u.query with
   | none => []
   | some ps => '?' :: serializePairs ps) ++
  (match u.fragment with
   | none => []
   | some f => '#' :: f)

/-- The five tracking parameters removed by `cleanUrl`
(src/parsers/utils.ts:5-9). -/
def utmNames : List Str :=
  ["utm_source".data, "utm_medium".data, "utm_campaign".data,
   "utm_content".data, "utm_term".data]

/-- The five `searchParams.delete` calls (src/parsers/utils.ts:5-9): filter
the pairs, dropping the `?` when nothing remains. -/
def deleteUtm (u : UrlObj) : UrlObj :=
  { u with query :=
      match u.query with
      | none => none
      | some ps =>
        let ps' := ps.filter fun p => !utmNames.contains p.1
        if ps' = [] then none else some ps' }

/-- `cleanUrl` (src/parsers/utils.ts:1-14): decode `&amp;`, parse, delete
the five utm parameters, re-serialize; on parse failure return the input
unchanged. -/
def cleanUrl (url : Str) : Str :=
  let decoded := replaceAll "&amp;".data "&".data url
  match parseUrl decoded with
  | some u => serializeUrl (deleteUtm u)
  | none => url

/-! ## `src/parsers/utils.ts` — keyword classification -/

/-- `TYPE_KEYWORDS` (src/parsers/utils.ts:28-64). -/
def TYPE_KEYWORDS : List (Str × List Str) :=
  [("developer".data,
    ["developer".data, "software engineer".data, "software dev".data,
     "full stack".data, "fullstack".data, "frontend".data, "front-end".data,
     "front end engineer".data, "backend".data, "back-end".data,
     "web developer".data, "web development".data, "mobile developer".data,
     "react".data, "angular".data, "vue".data, "node".data, "python".data,
     "java developer".data, ".net".data, "devops".data, "cloud engineer".data,
     "sre".data, "data engineer".data, "ml engineer".data, "ai engineer".data,
     "ai architect".data, "cyber security engineer".data,
     "security engineer".data, "vdi engineer".data,
     "software implementation".data, "développeur".data,
     "computer engineer".data]),
   ("game-dev".data,
    ["game developer".data, "game designer".data, "game programmer".data,
     "unity".data, "unreal".data, "game artist".data, "game producer".data,
     "game dev".data]),
   ("designer".data,
    ["ui designer".data, "ux designer".data, "ui/ux".data,
     "graphic designer".data, "visual designer".data, "product designer".data,
     "web designer".data, "interaction designer".data]),
   ("it-support".data,
    ["it support".data, "help desk".data, "helpdesk".data, "system admin".data,
     "sysadmin".data, "network admin".data, "network manager".data,
     "network security".data, "it technician".data, "desktop support".data,
     "it specialist".data, "it analyst".data, "it admin".data,
     "it summer".data, "it systems".data, "it /".data, "junior it".data,
     "service desk".data, "application support".data,
     "computer support".data, "computer operator".data,
     "computer network".data, "technical support".data,
     "technology support".data, "support specialist".data,
     "information technology".data, "ict systems".data,
     "ingénierie des systèmes tic".data,
     "technologies de l\x27informatique".data, "identity and access".data]),
   ("data-entry".data, ["data entry".data, "data administrator".data])]

/-- `inferType` (src/parsers/utils.ts:66-74): first table row with a
keyword contained in the lowercased title, else `other`. -/
def inferType (title : Str) : Str :=
  let lower := jsLower title
  match TYPE_KEYWORDS.find? (fun tk => tk.2.any fun k => isSubstr k lower) with
  | some tk => tk.1
  | none => "other".data

/-- The tag keyword table of `inferTags` (src/parsers/utils.ts:80-88). -/
def tagKeywords : List (Str × List Str) :=
  [("remote".data, ["remote".data, "work from home".data, "wfh".data]),
   ("hybrid".data, ["hybrid".data]),
   ("onsite".data, ["on-site".data, "onsite".data, "in-office".data]),
   ("senior".data,
    ["senior".data, "sr.".data, "lead".data, "principal".data, "staff".data]),
   ("junior".data,
    ["junior".data, "jr.".data, "entry level".data, "entry-level".data,
     "intern".data]),
   ("contract".data, ["contract".data, "freelance".data, "temporary".data]),
   ("fulltime".data, ["full-time".data, "full time".data, "permanent".data])]

/-- `inferTags` (src/parsers/utils.ts:76-100): every table row with a
keyword contained in the lowercased title, in table order. -/
def inferTags (title : Str) : List Str :=
  let lower := jsLower title
  tagKeywords.filterMap fun tk =>
    if tk.2.any (fun k => isSubstr k lower) then some tk.1 else none

/-! ## DOM model

The parsers receive an HTML string and query the document produced by the
browser's `DOMParser` (`createDomParser`, src/parsers/utils.ts:102-105).
The document is modelled at the granularity the embedded parsers use it:
the list of its `<a>` elements in document order, each carrying its
`href` attribute, its `textContent`, and its `<p>` descendants in order
(attribute access returns `Option` for the JavaScript `null`).  The HTML
parser itself is a platform facility and is passed as a parameter. -/

/-- A `<p>` element as the parsers consult it. -/
structure PElem where
  style : Option Str
  textContent : Str
deriving DecidableEq, Repr

/-- An `<a>` element as the parsers consult it. -/
structure Anchor where
  href : Option Str
  textContent : Str
  paragraphs : List PElem
deriving DecidableEq, Repr

/-- A parsed HTML document: its anchors in document order. -/
structure DomDoc where
  anchors : List Anchor
deriving DecidableEq, Repr

/-- `doc.querySelectorAll('a[href*="sub"]')`: anchors whose `href`
attribute contains the substring, in document order. -/
def querySelHref (sub : Str) (d : DomDoc) : List Anchor :=
  d.anchors.filter fun a =>
    match a.href with
    | some h => isSubstr sub h
    | none => false

/-- The output record of one parser invocation (`ParsedJob` in src/types). -/
structure ParsedJob where
  title : Str
  company : Str
  location : Str
  url : Str
  source : Str
  type : Str
  tags : List Str
deriving DecidableEq, Repr

/-! ## `src/parsers/linkedinParser.ts` (job-id grouping version) -/

/-- `extractJobKey` (linkedinParser): the first match of the regex
`/\/jobs\/view\/(\d+)/` — the maximal digit run following the first
occurrence of `/jobs/view/` that is followed by at least one digit. -/
def extractJobKey : Str → Option Str
  | [] => none
  | c :: t =>
    if "/jobs/view/".data.isPrefixOf (c :: t) then
      let ds := ((c :: t).drop 11).takeWhile Char.isDigit
      if ds ≠ [] then some ds else extractJobKey t
    else extractJobKey t

/-- One insertion into the `linksByJobId` map (linkedinParser): JavaScript
`Map` iteration follows key-insertion order, and each group keeps the
`href` of its first link. -/
def addToGroups (key : Str) (a : Anchor) (href : Str) :
    List (Str × List Anchor × Str) → List (Str × List Anchor × Str)
  | [] => [(key, [a], href)]
  | (k, links, fh) :: rest =>
    if k = key then (k, links ++ [a], fh) :: rest
    else (k, links, fh) :: addToGroups key a href rest

/-- The grouping pass of the LinkedIn parser: skip anchors without a
truthy `href` or without an extractable job id, and group the rest. -/
def groupLinksAux (gs : List (Str × List Anchor × Str)) :
    List Anchor → List (Str × List Anchor × Str)
  | [] => gs
  | a :: rest =>
    match a.href with
    | none => groupLinksAux gs rest
    | some href =>
      if href = [] then groupLinksAux gs rest
      else
        match extractJobKey href with
        | none => groupLinksAux gs rest
        | some jid => groupLinksAux (addToGroups jid a href gs) rest

/-- `linksByJobId` built from the selected anchors (linkedinParser). -/
def groupLinks (links : List Anchor) : List (Str × List Anchor × Str) :=
  groupLinksAux [] links

/-- The LinkedIn parser's skip regex `/^easy\s+apply$/i`. -/
def isEasyApply (t : Str) : Bool :=
  let l := jsLower t
  "easy".data.isPrefixOf l &&
    (let r := l.drop 4
     !(r.takeWhile isJsWs).isEmpty && r.dropWhile isJsWs == "apply".data)

/-- The LinkedIn parser's skip regex
`/^\d+\s+(school|company|connection|alum|mutual)/i`. -/
def isCountLabel (t : Str) : Bool :=
  let l := jsLower t
  let ds := l.takeWhile Char.isDigit
  !ds.isEmpty &&
    (let r := l.drop ds.length
     !(r.takeWhile isJsWs).isEmpty &&
       (let r2 := r.dropWhile isJsWs
        ["school".data, "company".data, "connection".data, "alum".data,
         "mutual".data].any fun w => w.isPrefixOf r2))

/-- The LinkedIn parser's skip regex
`/^(school alum|alumni|connection|promoted|viewed|new|reposted)$/i`. -/
def isStatusLabel (t : Str) : Bool :=
  ["school alum".data, "alumni".data, "connection".data, "promoted".data,
   "viewed".data, "new".data, "reposted".data].contains (jsLower t)

/-- Index of the first occurrence of a substring (`String.indexOf`). -/
def idxOfSub (sub : Str) : Str → Option Nat
  | [] => if sub.isEmpty then some 0 else none
  | c :: t =>
    if sub.isPrefixOf (c :: t) then some 0
    else (idxOfSub sub t).map (· + 1)

/-- The company/location pass over one `<p>` text inside a link with
paragraphs (linkedinParser lines 125-140): skip labels, then split at the
first `" · "` when the company is still unset. -/
def liParaStep (st : Str × Str × Str) (ptext : Str) : Str × Str × Str :=
  let text := cleanText ptext
  if text = [] then st
  else if isEasyApply text then st
  else if isCountLabel text then st
  else if isStatusLabel text then st
  else
    match st with
    | (title, company, loc) =>
      if company = [] ∧ isSubstr " · ".data text then
        match idxOfSub " · ".data text with
        | some i => (title, jsTrim (text.take i), jsTrim (text.drop (i + 3)))
        | none => (title, company, loc)
      else (title, company, loc)

/-- The per-link pass of the LinkedIn parser's group loop (lines 114-142):
a link with no `<p>` contributes the title (when ≥ 5 characters and the
title is unset); a link with `<p>` elements contributes company/location. -/
def liLinkStep (st : Str × Str × Str) (link : Anchor) : Str × Str × Str :=
  if link.paragraphs = [] then
    let text := cleanText link.textContent
    match st with
    | (title, company, loc) =>
      if text ≠ [] ∧ text.length ≥ 5 ∧ title = [] then (text, company, loc)
      else (title, company, loc)
  else
    (link.paragraphs.map PElem.textContent).foldl liParaStep st

/-- One group of the LinkedIn parser's output loop (lines 108-155): emit a
job when a title of at least 3 characters was found. -/
def liEmitGroup (g : Str × List Anchor × Str) : Option ParsedJob :=
  match g with
  | (_, links, firstHref) =>
    let url := cleanUrl firstHref
    match links.foldl liLinkStep ([], [], []) with
    | (title, company, loc) =>
      if title = [] ∨ title.length < 3 then none
      else
        some
          { title := title
            company := if company = [] then "Unknown".data else company
            location := loc
            url := url
            source := "linkedin".data
            type := inferType title
            tags := inferTags (title ++ ' ' :: loc) }

/-- `linkedinParser.parse` (job-id grouping version): select the
`a[href*="linkedin.com/comm/jobs/view"]` anchors, group them by job id,
and emit at most one job per group. -/
def linkedinParse (dom : Str → DomDoc) (htmlBody : Str) : List ParsedJob :=
  let allLinks := querySelHref "linkedin.com/comm/jobs/view".data (dom htmlBody)
  (groupLinks allLinks).filterMap liEmitGroup

/-! ## `src/services/gmailService.ts` — message structure and accessors -/

/-- A Gmail header (`GmailHeader` in src/types). -/
structure GmailHeader where
  name : Str
  value : Str
deriving DecidableEq, Repr

/-- A MIME-tree node (`GmailMessagePart` in src/types): its `mimeType`,
its headers, its `body?.data`, and its child parts. -/
inductive GmailMessagePart where
  | mk (mimeType : Option Str) (headers : List GmailHeader)
      (bodyData : Option Str) (parts : List GmailMessagePart)

/-- The `mimeType` field of a part. -/
def GmailMessagePart.mimeType : GmailMessagePart → Option Str
  | .mk mt _ _ _ => mt

/-- The `headers` field of a part. -/
def GmailMessagePart.headers : GmailMessagePart → List GmailHeader
  | .mk _ hs _ _ => hs

/-- The `body?.data` field of a part. -/
def GmailMessagePart.bodyData : GmailMessagePart → Option Str
  | .mk _ _ bd _ => bd

/-- The `parts` field of a part (an absent array behaves as empty). -/
def GmailMessagePart.parts : GmailMessagePart → List GmailMessagePart
  | .mk _ _ _ ps => ps

/-- A remote message (`GmailMessage` in src/types). -/
structure GmailMessage where
  id : Str
  internalDate : Option Str
  payload : Option GmailMessagePart

mutual

/-- `findHtml` inside `extractHtmlBody` (src/services/gmailService.ts:81-92):
depth-first search for a `text/html` part with truthy body data; `decode`
is the platform base64url decoding (`decodeBase64Url`). -/
def findHtml (decode : Str → Str) : GmailMessagePart → Option Str
  | .mk mt _ bd parts =>
    match mt, bd with
    | some m, some d =>
      if m = "text/html".data ∧ d ≠ [] then some (decode d)
      else findHtmlList decode parts
    | _, _ => findHtmlList decode parts

/-- The loop over child parts inside `findHtml`: a child's result is kept
only when truthy (`if (result) return result`). -/
def findHtmlList (decode : Str → Str) : List GmailMessagePart → Option Str
  | [] => none
  | p :: ps =>
    match findHtml decode p with
    | some s => if s ≠ [] then some s else findHtmlList decode ps
    | none => findHtmlList decode ps

end

/-- `extractHtmlBody` (src/services/gmailService.ts:78-95). -/
def extractHtmlBody (decode : Str → Str) (message : GmailMessage) :
    Option Str :=
  match message.payload with
  | none => none
  | some p => findHtml decode p

/-- `getHeader` (src/services/gmailService.ts:116-120): case-insensitive
header lookup on the payload's headers. -/
def getHeader (message : GmailMessage) (name : Str) : Option Str :=
  let headers := match message.payload with
    | some p => p.headers
    | none => []
  (headers.find? fun h => jsLower h.name == jsLower name).map GmailHeader.value

/-- Line terminators, which the JavaScript regex `.` does not match. -/
def isLineTerm (c : Char) : Bool :=
  c = '\n' || c = '\r' || c.toNat = 0x2028 || c.toNat = 0x2029

/-- Index of the first `>` in a string, failing at a line terminator. -/
def findGtIdx : Str → Option Nat
  | [] => none
  | c :: t =>
    if c = '>' then some 0
    else if isLineTerm c then none
    else (findGtIdx t).map (· + 1)

/-- The match of the regex `/<(.+?)>/`: the capture of the leftmost match
— at the first `<` followed by a non-terminator character and then a `>`
reachable without crossing a line terminator, the capture being the
shortest such span. -/
def bracketCapture : Str → Option Str
  | [] => none
  | '<' :: rest =>
    (match rest with
     | [] => none
     | c :: more =>
       if isLineTerm c then bracketCapture rest
       else
         match findGtIdx more with
         | some k => some (c :: more.take k)
         | none => bracketCapture rest)
  | _ :: rest => bracketCapture rest

/-- `getSenderEmail` (src/services/gmailService.ts:133-137): the bracketed
capture of the From header when the regex matches, else the whole header,
lowercased either way. -/
def getSenderEmail (message : GmailMessage) : Str :=
  let fromHeader := (getHeader message "From".data).getD []
  match bracketCapture fromHeader with
  | some capture => jsLower capture
  | none => jsLower fromHeader

/-- `getMessageDate` (src/services/gmailService.ts:122-131), with the
platform `Date` parsing/formatting passed in: `dateParseIso` models
`new Date(header).toISOString()`, `msParseIso` models
`new Date(parseInt(internalDate)).toISOString()`, and `nowIso` the
current time. -/
def getMessageDate (dateParseIso msParseIso : Str → Str) (nowIso : Str)
    (message : GmailMessage) : Str :=
  let dateHeader := (getHeader message "Date".data).getD []
  if dateHeader ≠ [] then dateParseIso dateHeader
  else
    let internal := message.internalDate.getD []
    if internal ≠ [] then msParseIso internal
    else nowIso

/-! ## `src/parsers/genericParser.ts` -/

/-- The generic parser's href skip list (genericParser lines 69-77). -/
def genericSkipHref (href : Str) : Bool :=
  isSubstr "unsubscribe".data href || isSubstr "mailto:".data href ||
  isSubstr "privacy".data href || isSubstr "terms".data href ||
  isSubstr "preferences".data href || isSubstr "#".data href ||
  decide (href.length < 20)

/-- The generic anchor texts discarded by the generic parser (line 87). -/
def genericLinkTexts : List Str :=
  ["click here".data, "learn more".data, "read more".data, "view".data,
   "apply".data]

/-- The generic parser's loop over `a[href]` anchors (genericParser lines
64-98), threading the `seenUrls` set. -/
def genericGo (subject : Str) (seen : List Str) :
    List Anchor → List ParsedJob
  | [] => []
  | link :: rest =>
    match link.href with
    | none => genericGo subject seen rest
    | some href =>
      if href = [] then genericGo subject seen rest
      else if genericSkipHref href then genericGo subject seen rest
      else
        let url := cleanUrl href
        if seen.contains url then genericGo subject seen rest
        else
          let seen' := url :: seen
          let titleText := cleanText link.textContent
          if titleText = [] ∨ titleText.length < 5 ∨ titleText.length > 200 then
            genericGo subject seen' rest
          else if genericLinkTexts.contains (jsLower titleText) then
            genericGo subject seen' rest
          else
            { title := titleText
              company := "Unknown".data
              location := []
              url := url
              source := "email".data
              type := inferType (if titleText = [] then subject else titleText)
              tags := inferTags (if titleText = [] then subject else titleText)
            } :: genericGo subject seen' rest

/-- `genericParser.parse` (genericParser lines 55-101). -/
def genericParse (dom : Str → DomDoc) (htmlBody : Str)
    (message : GmailMessage) : List ParsedJob :=
  let links := (dom htmlBody).anchors.filter fun a => a.href.isSome
  let subject := (getHeader message "Subject".data).getD []
  genericGo subject [] links

/-! ## `src/parsers/parserRegistry.ts` — dispatch -/

/-- `EmailParser` (src/parsers/types.ts). -/
structure EmailParser where
  name : Str
  canParse : Str → Bool
  parse : Str → GmailMessage → List ParsedJob

/-- The parse bodies this development does not embed (their DOM walks are
irrelevant to every claim): the Indeed and Glassdoor extraction
strategies, passed as parameters. -/
structure ParserImpls where
  indeedBody : Str → GmailMessage → List ParsedJob
  glassdoorBody : Str → GmailMessage → List ParsedJob

/-- `linkedinParser` with its sender predicate
(linkedinParser: `senderEmail.includes('linkedin.com')`). -/
def linkedinParser (dom : Str → DomDoc) : EmailParser :=
  { name := "linkedin".data
    canParse := fun senderEmail => isSubstr "linkedin.com".data senderEmail
    parse := fun htmlBody _ => linkedinParse dom htmlBody }

/-- `indeedParser` with its sender predicate
(src/parsers/types.ts companion: `senderEmail.includes('indeed.com')`). -/
def indeedParser (impl : ParserImpls) : EmailParser :=
  { name := "indeed".data
    canParse := fun senderEmail => isSubstr "indeed.com".data senderEmail
    parse := impl.indeedBody }

/-- `glassdoorParser` with its sender predicate
(glassdoorParser: `senderEmail.includes('glassdoor.com')`). -/
def glassdoorParser (impl : ParserImpls) : EmailParser :=
  { name := "glassdoor".data
    canParse := fun senderEmail => isSubstr "glassdoor.com".data senderEmail
    parse := impl.glassdoorBody }

/-- `genericParser` (genericParser lines 48-53): `canParse` is constantly
true. -/
def genericParser (dom : Str → DomDoc) : EmailParser :=
  { name := "generic".data
    canParse := fun _ => true
    parse := genericParse dom }

/-- The `parsers` array (src/parsers/parserRegistry.ts:9-14). -/
def parsersList (dom : Str → DomDoc) (impl : ParserImpls) :
    List EmailParser :=
  [linkedinParser dom, indeedParser impl, glassdoorParser impl,
   genericParser dom]

/-- The dispatch loop of `parseEmail` (src/parsers/parserRegistry.ts:24-29):
skip the generic parser, return the first whose `canParse` accepts. -/
def firstSpecific (sender : Str) : List EmailParser → Option EmailParser
  | [] => none
  | p :: ps =>
    if p.name = "generic".data then firstSpecific sender ps
    else if p.canParse sender then some p
    else firstSpecific sender ps

/-- `parseEmail` (src/parsers/parserRegistry.ts:16-33). -/
def parseEmail (dom : Str → DomDoc) (decode : Str → Str)
    (impl : ParserImpls) (message : GmailMessage) : List ParsedJob :=
  let senderEmail := getSenderEmail message
  let htmlBody := extractHtmlBody decode message
  match htmlBody with
  | none => []
  | some h =>
    if h = [] then []
    else
      match firstSpecific senderEmail (parsersList dom impl) with
      | some parser => parser.parse h message
      | none => (genericParser dom).parse h message

/-- The spec's description of dispatch (spec §4.2): try LinkedIn, Indeed,
Glassdoor in that fixed order on the sender, first match wins, generic
otherwise. -/
def selectParserSpec (dom : Str → DomDoc) (impl : ParserImpls)
    (sender : Str) : EmailParser :=
  if isSubstr "linkedin.com".data sender then linkedinParser dom
  else if isSubstr "indeed.com".data sender then indeedParser impl
  else if isSubstr "glassdoor.com".data sender then glassdoorParser impl
  else genericParser dom

/-! ## `src/hooks/useFetchEmails.ts` — the fetch orchestrator

The five-phase pipeline is modelled as a state-passing function.  The
cooperative cancellation signal (`AbortController`) is modelled by the
index of the signal check at which it is first observed aborted: checks
are numbered in execution order by the counter `k`, and with signal
`some a` every check with index `≥ a` observes `aborted`.  Throwing
`new Error('Stopped')` is the `Except.error` path; the run-level
`catch` inspects the signal exactly as the code does.  External effects
(transport pages, fetches, persists, archive calls) are recorded in an
effect trace. -/

/-- `FetchProgress.phase` (src/types). -/
inductive Phase where
  | listing | fetching | parsing | saving | archiving | done | error
deriving DecidableEq, Repr

/-- `FetchProgress` (src/types). -/
structure FetchProgress where
  phase : Phase
  current : Nat
  total : Nat
  message : Str
  newJobsCount : Nat
deriving DecidableEq, Repr

/-- The externally visible actions of one run. -/
inductive Effect where
  | listPage (ids : List Str)
  | fetchBatch (ids : List Str)
  | persist (j : NewJob)
  | archiveBatch (ids : List Str)
deriving DecidableEq, Repr

/-- The collaborators and inputs of one `fetchEmails` invocation. -/
structure OrchEnv where
  dom : Str → DomDoc
  decode : Str → Str
  impl : ParserImpls
  dateParseIso : Str → Str
  msParseIso : Str → Str
  nowIso : Str
  pages : List (List Str)
  fetchMessage : Str → GmailMessage
  existingJobs : List Job
  persistOk : NewJob → Bool
  shouldArchive : Bool

/-- The orchestrator's running state: signal checks executed, the
`newJobsCount` variable, the React progress state, and the effect trace. -/
structure St where
  k : Nat
  saved : Nat
  prog : FetchProgress
  effects : List Effect
deriving DecidableEq, Repr

/-- The cancellation signal: aborted from check index `a` on. -/
def sigAborted (ab : Option Nat) (k : Nat) : Bool :=
  match ab with
  | some a => decide (a ≤ k)
  | none => false

/-- One `if (signal.aborted) throw new Error('Stopped')` site. -/
def checkSignal (ab : Option Nat) (st : St) : Except (St × Str) St :=
  if sigAborted ab st.k then .error ({ st with k := st.k + 1 }, "Stopped".data)
  else .ok { st with k := st.k + 1 }

/-- `${n}` interpolation of a number. -/
def natToStr (n : Nat) : Str := (Nat.repr n).data

/-- The terminal message of a cancelled run
(src/hooks/useFetchEmails.ts:388). -/
def stoppedMsg (n : Nat) : Str :=
  "Stopped. ".data ++ natToStr n ++ " jobs saved before stopping.".data

/-- `listMessageIds`'s pagination loop (src/services/gmailService.ts:17-31):
a signal check per page, ids accumulated in page order. -/
def listLoop (ab : Option Nat) (st : St) :
    List (List Str) → Except (St × Str) (St × List Str)
  | [] => .ok (st, [])
  | page :: rest =>
    match checkSignal ab st with
    | .error e => .error e
    | .ok st1 =>
      let st2 := { st1 with effects := st1.effects ++ [Effect.listPage page] }
      match listLoop ab st2 rest with
      | .ok (st3, ids) => .ok (st3, page ++ ids)
      | .error e => .error e

/-- `getMessages`'s batch loop (src/services/gmailService.ts:52-63):
batches of `BATCH_SIZE = 5`, a signal check per batch, a progress report
after each batch. -/
def fetchLoop (env : OrchEnv) (ab : Option Nat) (st : St)
    (total fetched : Nat) : List Str → Except (St × Str) (St × List GmailMessage)
  | [] => .ok (st, [])
  | id0 :: restIds =>
    match checkSignal ab st with
    | .error e => .error e
    | .ok st1 =>
      let batch := (id0 :: restIds).take 5
      let msgs := batch.map env.fetchMessage
      let st2 := { st1 with effects := st1.effects ++ [Effect.fetchBatch batch] }
      let st3 := { st2 with prog :=
        { st2.prog with
            current := fetched + batch.length
            total := total
            message := "Fetching emails... ".data ++
              natToStr (fetched + batch.length) ++ "/".data ++
              natToStr total } }
      match fetchLoop env ab st3 total (fetched + batch.length)
          ((id0 :: restIds).drop 5) with
      | .ok (st4, rest) => .ok (st4, msgs ++ rest)
      | .error e => .error e
  termination_by ids => ids.length
  decreasing_by
    simp only [List.length_drop, List.length_cons]
    omega

/-- Build the `NewJob` pushed by the Parsing loop
(src/hooks/useFetchEmails.ts:300-306). -/
def toNewJob (pj : ParsedJob) (emailId dateReceived : Str) : NewJob :=
  { title := pj.title, company := pj.company, location := pj.location
    url := pj.url, source := pj.source, type := pj.type, tags := pj.tags
    emailId := emailId, dateReceived := dateReceived }

/-- The Parsing loop (src/hooks/useFetchEmails.ts:294-313): a signal check
per message, jobs accumulated, a progress report per message. -/
def parseLoop (env : OrchEnv) (ab : Option Nat) (st : St)
    (total i : Nat) (acc : List NewJob) :
    List GmailMessage → Except (St × Str) (St × List NewJob)
  | [] => .ok (st, acc)
  | m :: rest =>
    match checkSignal ab st with
    | .error e => .error e
    | .ok st1 =>
      let parsedJobs := parseEmail env.dom env.decode env.impl m
      let dateReceived :=
        getMessageDate env.dateParseIso env.msParseIso env.nowIso m
      let acc' := acc ++ parsedJobs.map fun pj => toNewJob pj m.id dateReceived
      let st2 := { st1 with prog :=
        { st1.prog with
            current := i + 1
            message := "Parsed ".data ++ natToStr (i + 1) ++ "/".data ++
              natToStr total ++ " emails (".data ++ natToStr acc'.length ++
              " jobs found)".data } }
      parseLoop env ab st2 total (i + 1) acc' rest

/-- The Saving loop (src/hooks/useFetchEmails.ts:335-346): a signal check
per candidate, `addJobIfNotExists` against the shared cache, the persist
recorded on success, a progress report per candidate.  A rejected persist
propagates (there is no per-candidate try/catch). -/
def saveLoop (env : OrchEnv) (ab : Option Nat) (st : St)
    (total i : Nat) (cache : DedupCache) :
    List NewJob → Except (St × Str) (St × DedupCache)
  | [] => .ok (st, cache)
  | j :: rest =>
    match checkSignal ab st with
    | .error e => .error e
    | .ok st1 =>
      match addJobIfNotExistsE env.persistOk cache j with
      | .error () => .error (st1, "PersistError".data)
      | .ok (didSave, cache') =>
        let st2 :=
          if didSave then
            { st1 with
                saved := st1.saved + 1
                effects := st1.effects ++ [Effect.persist (safeJob j)] }
          else st1
        let st3 := { st2 with prog :=
          { st2.prog with
              current := i + 1
              newJobsCount := st2.saved
              message := "Saving jobs... ".data ++ natToStr (i + 1) ++
                "/".data ++ natToStr total ++ " (".data ++
                natToStr st2.saved ++ " new)".data } }
        saveLoop env ab st3 total (i + 1) cache' rest

/-- `archiveMessages`'s batch loop (src/services/gmailService.ts:158-167):
batches of 5, a signal check per batch, a progress report per batch. -/
def archiveLoop (env : OrchEnv) (ab : Option Nat) (st : St)
    (total processed : Nat) : List Str → Except (St × Str) St
  | [] => .ok st
  | id0 :: restIds =>
    match checkSignal ab st with
    | .error e => .error e
    | .ok st1 =>
      let batch := (id0 :: restIds).take 5
      let st2 := { st1 with effects := st1.effects ++ [Effect.archiveBatch batch] }
      let st3 := { st2 with prog :=
        { st2.prog with
            current := min (processed + 5) total
            message := "Archiving emails... ".data ++
              natToStr (min (processed + 5) total) ++ "/".data ++
              natToStr total } }
      archiveLoop env ab st3 total (processed + 5) ((id0 :: restIds).drop 5)
  termination_by ids => ids.length
  decreasing_by
    simp only [List.length_drop, List.length_cons]
    omega

/-- The normalization `getAllJobs` applies when reading the snapshot
(src/services/jobService.ts:76): stored urls come back truncated. -/
def loadSnapshot (jobs : List Job) : List Job :=
  jobs.map fun j => { j with url := truncateUrl j.url }

/-- The terminal message of a successful run
(src/hooks/useFetchEmails.ts:372-381). -/
def doneMsg (saved : Nat) (shouldArchive : Bool) (nIds : Nat) : Str :=
  "Done! ".data ++ natToStr saved ++ " new jobs added".data ++
  (if shouldArchive then ", ".data ++ natToStr nIds ++ " emails archived".data
   else []) ++ ".".data

/-- The `try` block of `fetchEmails`
(src/hooks/useFetchEmails.ts:235-382): the five phases in order, with the
signal checks exactly where the code places them. -/
def fetchEmailsTry (env : OrchEnv) (ab : Option Nat) : Except (St × Str) St :=
  let st0 : St :=
    { k := 0, saved := 0
      prog := { phase := .listing, current := 0, total := 0
                message := "Searching for job alert emails...".data
                newJobsCount := 0 }
      effects := [] }
  match listLoop ab st0 env.pages with
  | .error e => .error e
  | .ok (st1, messageIds) =>
    match checkSignal ab st1 with
    | .error e => .error e
    | .ok st2 =>
      if messageIds = [] then
        .ok { st2 with prog :=
          { phase := .done, current := 0, total := 0
            message := "No job alert emails found.".data
            newJobsCount := 0 } }
      else
        let st3 := { st2 with prog :=
          { phase := .fetching, current := 0, total := messageIds.length
            message := "Fetching ".data ++ natToStr messageIds.length ++
              " emails...".data
            newJobsCount := 0 } }
        match fetchLoop env ab st3 messageIds.length 0 messageIds with
        | .error e => .error e
        | .ok (st4, messages) =>
          match checkSignal ab st4 with
          | .error e => .error e
          | .ok st5 =>
            let st6 := { st5 with prog :=
              { phase := .parsing, current := 0, total := messages.length
                message := "Parsing job listings from emails...".data
                newJobsCount := 0 } }
            match parseLoop env ab st6 messages.length 0 [] messages with
            | .error e => .error e
            | .ok (st7, allJobs) =>
              let st8 := { st7 with prog :=
                { phase := .saving, current := 0, total := allJobs.length
                  message := "Loading dedup cache...".data
                  newJobsCount := 0 } }
              let cache := DedupCache.fromJobs (loadSnapshot env.existingJobs)
              match checkSignal ab st8 with
              | .error e => .error e
              | .ok st9 =>
                let st10 := { st9 with prog :=
                  { st9.prog with
                      message := "Saving ".data ++ natToStr allJobs.length ++
                        " jobs to database...".data } }
                match saveLoop env ab st10 allJobs.length 0 cache allJobs with
                | .error e => .error e
                | .ok (st11, _) =>
                  let afterArchive : Except (St × Str) St :=
                    if env.shouldArchive then
                      match checkSignal ab st11 with
                      | .error e => .error e
                      | .ok st12 =>
                        let st13 := { st12 with prog :=
                          { phase := .archiving, current := 0
                            total := messageIds.length
                            message := "Archiving ".data ++
                              natToStr messageIds.length ++ " emails...".data
                            newJobsCount := st12.saved } }
                        archiveLoop env ab st13 messageIds.length 0 messageIds
                    else .ok st11
                  match afterArchive with
                  | .error e => .error e
                  | .ok st14 =>
                    .ok { st14 with prog :=
                      { phase := .done
                        current := allJobs.length
                        total := allJobs.length
                        message := doneMsg st14.saved env.shouldArchive
                          messageIds.length
                        newJobsCount := st14.saved } }

/-- `fetchEmails` (src/hooks/useFetchEmails.ts:227-403): the `try` block
and the `catch` handler, which reports a clean stop when the signal is
aborted and a phase-tagged error otherwise, in both cases preserving the
accumulated `newJobsCount`. -/
def fetchEmailsRun (env : OrchEnv) (ab : Option Nat) : St :=
  match fetchEmailsTry env ab with
  | .ok st => st
  | .error (st, msg) =>
    if sigAborted ab st.k then
      { st with prog :=
        { st.prog with phase := .done, message := stoppedMsg st.saved } }
    else
      { st with prog :=
        { phase := .error, current := 0, total := 0
          message := "Error: ".data ++ msg
          newJobsCount := st.saved } }

/-- Count of persisted jobs in an effect trace. -/
def countPersists (effects : List Effect) : Nat :=
  effects.countP fun e =>
    match e with
    | .persist _ => true
    | _ => false

/-- A concrete environment exercising the orchestrator: one page with one
message id, an always-succeeding store, archiving enabled. -/
def envC : OrchEnv :=
  { dom := fun _ => ⟨[]⟩
    decode := fun s => s
    impl := ⟨fun _ _ => [], fun _ _ => []⟩
    dateParseIso := fun s => s
    msParseIso := fun s => s
    nowIso := []
    pages := [["m1".data]]
    fetchMessage := fun i => ⟨i, none, none⟩
    existingJobs := []
    persistOk := fun _ => true
    shouldArchive := true }

/-! ## Auxiliary predicates used by the statements -/

mutual

/-- Whether a MIME tree contains any part declaring `text/html`. -/
def hasHtmlPart : GmailMessagePart → Bool
  | .mk mt _ _ parts =>
    (match mt with
     | some m => m = "text/html".data
     | none => false) || hasHtmlPartList parts

/-- `hasHtmlPart` over a list of child parts. -/
def hasHtmlPartList : List GmailMessagePart → Bool
  | [] => false
  | p :: ps => hasHtmlPart p || hasHtmlPartList ps

end

/-- The well-formedness invariants `parseUrl` guarantees of its output;
`serializeUrl` is injectively parseable on objects satisfying them. -/
def UrlWF (u : UrlObj) : Prop :=
  u.scheme ≠ [] ∧ (∀ c ∈ u.scheme, isSchemeChar c = true) ∧
  u.host ≠ [] ∧ (∀ c ∈ u.host, isHostEnd c = false) ∧
  u.path ≠ [] ∧ (∃ t, u.path = '/' :: t) ∧
  (∀ c ∈ u.path, c ≠ '?' ∧ c ≠ '#') ∧
  (∀ ps, u.query = some ps → ps ≠ [] ∧ ∀ p ∈ ps,
    (∀ c ∈ p.1, c ≠ '&' ∧ c ≠ '=' ∧ c ≠ '#') ∧
    (∀ c ∈ p.2, c ≠ '&' ∧ c ≠ '#'))

/-- The invariants `parseUrl` establishes on its output: `UrlWF` without
the non-emptiness of the query pair list (a trailing `?` parses to
`some []`, which `deleteUtm` then turns into `none`). -/
def UrlWFq (u : UrlObj) : Prop :=
  u.scheme ≠ [] ∧ (∀ c ∈ u.scheme, isSchemeChar c = true) ∧
  u.host ≠ [] ∧ (∀ c ∈ u.host, isHostEnd c = false) ∧
  u.path ≠ [] ∧ (∃ t, u.path = '/' :: t) ∧
  (∀ c ∈ u.path, c ≠ '?' ∧ c ≠ '#') ∧
  (∀ ps, u.query = some ps → ∀ p ∈ ps,
    (∀ c ∈ p.1, c ≠ '&' ∧ c ≠ '=' ∧ c ≠ '#') ∧
    (∀ c ∈ p.2, c ≠ '&' ∧ c ≠ '#'))

/-! ## Theorems -/

theorem truncateUrl_idem (u : Str) :
    truncateUrl (truncateUrl u) = truncateUrl u := by
  unfold truncateUrl
  by_cases h : u.length > MAX_URL_LENGTH
  · simp only [if_pos h]
    have hl : (u.take MAX_URL_LENGTH).length = MAX_URL_LENGTH := by
      rw [List.length_take]
      omega
    rw [if_neg]
    omega
  · rw [if_neg h, if_neg h]

theorem hasJob_iff (c : DedupCache) (x : NewJob) :
    c.hasJob x = true ↔
      truncateUrl x.url ∈ c.urls ∨
        tcKey x.title x.company ∈ c.titleCompany := by
  unfold DedupCache.hasJob
  by_cases h1 : truncateUrl x.url ∈ c.urls
  · simp [List.contains, List.elem_iff, h1]
  · by_cases h2 : tcKey x.title x.company ∈ c.titleCompany <;>
      simp [List.contains, List.elem_iff, h1, h2]

theorem hasJob_addJobKeys_self (c : DedupCache) (j : NewJob) :
    (c.addJobKeys j).hasJob j = true := by
  rw [hasJob_iff]
  exact Or.inl (by simp [DedupCache.addJobKeys])

/-- C3: the truncation applied by `DedupCache.has` equals the truncation
applied by `DedupCache.add` (both use `truncateUrl`, which is idempotent),
so for every cache and candidate — of any URL length — `has` returns true
right after `add`. -/
theorem C3_truncation_consistency (c : DedupCache) (j : NewJob) :
    (c.addJobKeys j).hasJob j = true ∧
      truncateUrl (truncateUrl j.url) = truncateUrl j.url :=
  ⟨hasJob_addJobKeys_self c j, truncateUrl_idem j.url⟩

theorem hasJob_addJobKeys_mono (c : DedupCache) (j x : NewJob)
    (h : c.hasJob x = true) : (c.addJobKeys j).hasJob x = true := by
  rw [hasJob_iff] at h ⊢
  rcases h with h | h
  · exact Or.inl (by simp [DedupCache.addJobKeys, h])
  · exact Or.inr (by simp [DedupCache.addJobKeys, h])

theorem hasJob_savePhase_mono (batch : List NewJob) (c : DedupCache)
    (x : NewJob) (h : c.hasJob x = true) :
    (savePhase c batch).1.hasJob x = true := by
  induction batch generalizing c with
  | nil => exact h
  | cons j rest ih =>
    simp only [savePhase, addJobIfNotExists]
    by_cases hj : c.hasJob (safeJob j) = true
    · simp only [hj, if_true]
      exact ih c h
    · simp only [eq_false_of_ne_true hj, Bool.false_eq_true, if_false]
      exact ih _ (hasJob_addJobKeys_mono _ _ _ h)

theorem safeJob_keys (j : NewJob) (c : DedupCache) :
    (c.addJobKeys (safeJob j)).hasJob (safeJob j) = true :=
  hasJob_addJobKeys_self c (safeJob j)

theorem savePhase_covers (batch : List NewJob) (c : DedupCache) :
    ∀ j ∈ batch, (savePhase c batch).1.hasJob (safeJob j) = true := by
  induction batch generalizing c with
  | nil => intro j hj; cases hj
  | cons hd rest ih =>
    intro j hj
    simp only [savePhase, addJobIfNotExists]
    rcases List.mem_cons.mp hj with rfl | hmem
    · by_cases hh : c.hasJob (safeJob j) = true
      · simp only [hh, if_true]
        exact hasJob_savePhase_mono rest c _ hh
      · simp only [eq_false_of_ne_true hh, Bool.false_eq_true, if_false]
        exact hasJob_savePhase_mono rest _ _ (safeJob_keys j c)
    · by_cases hh : c.hasJob (safeJob hd) = true
      · simp only [hh, if_true]
        exact ih c j hmem
      · simp only [eq_false_of_ne_true hh, Bool.false_eq_true, if_false]
        exact ih _ j hmem

theorem savePhase_allHas (batch : List NewJob) (c : DedupCache)
    (h : ∀ j ∈ batch, c.hasJob (safeJob j) = true) :
    savePhase c batch = (c, 0) := by
  induction batch with
  | nil => rfl
  | cons hd rest ih =>
    have hh := h hd (List.mem_cons_self hd rest)
    simp only [savePhase, addJobIfNotExists, hh, if_true]
    rw [ih fun j hj => h j (List.mem_cons_of_mem hd hj)]
    simp

/-- C1: the Saving phase is idempotent with respect to the dedup cache:
rerunning the same batch of candidates against the cache produced by the
first run (the snapshot keys plus the keys added for every persisted
candidate) persists zero new jobs, because a successful persist adds both
keys and a skipped candidate's hit key is never removed. -/
theorem C1_saving_idempotent (c : DedupCache) (batch : List NewJob) :
    (savePhase (savePhase c batch).1 batch).2 = 0 := by
  rw [savePhase_allHas batch (savePhase c batch).1 (savePhase_covers batch c)]

theorem hasJob_fromJobsStep (c : DedupCache) (j : Job) (x : NewJob) :
    (fromJobsStep c j).hasJob x = true ↔
      (j.url ≠ [] ∧ j.url = truncateUrl x.url) ∨
      (j.title ≠ [] ∧ j.company ≠ [] ∧
        tcKey j.title j.company = tcKey x.title x.company) ∨
      c.hasJob x = true := by
  unfold fromJobsStep
  by_cases hu : j.url = [] <;>
    by_cases htc : j.title ≠ [] ∧ j.company ≠ [] <;>
      simp only [hu, htc, hasJob_iff, List.mem_cons, ne_eq,
        not_true_eq_false, not_false_eq_true, if_true, if_false,
        and_true, and_false, false_and, true_and, if_neg, if_pos,
        not_true, reduceIte] <;>
    constructor <;> intro h <;> first
      | tauto
      | (rcases h with h | h <;> try tauto) <;> tauto

theorem hasJob_fromJobsAux (jobs : List Job) (c : DedupCache) (x : NewJob) :
    (fromJobsAux jobs c).hasJob x = true ↔
      (∃ j ∈ jobs,
        (j.url ≠ [] ∧ j.url = truncateUrl x.url) ∨
        (j.title ≠ [] ∧ j.company ≠ [] ∧
          tcKey j.title j.company = tcKey x.title x.company)) ∨
      c.hasJob x = true := by
  induction jobs generalizing c with
  | nil => simp [fromJobsAux]
  | cons hd rest ih =>
    simp only [fromJobsAux, ih, hasJob_fromJobsStep, List.mem_cons]
    constructor
    · rintro (⟨j, hj, hcase⟩ | hc | hc | hc)
      · exact Or.inl ⟨j, Or.inr hj, hcase⟩
      · exact Or.inl ⟨hd, Or.inl rfl, Or.inl hc⟩
      · exact Or.inl ⟨hd, Or.inl rfl, Or.inr hc⟩
      · exact Or.inr hc
    · rintro (⟨j, rfl | hj, hcase⟩ | hc)
      · rcases hcase with hcase | hcase
        · exact Or.inr (Or.inl hcase)
        · exact Or.inr (Or.inr (Or.inl hcase))
      · exact Or.inl ⟨j, hj, hcase⟩
      · exact Or.inr (Or.inr (Or.inr hc))

/-- C2 counterexample: the stored job ("Dev", "Acme") and a candidate
("dev", "acme") differ only in letter case (and have different URLs), yet
`DedupCache.has` returns `false` — the cache key is not lowercased. -/
theorem C2_counterexample :
    (DedupCache.fromJobs
      [{ id := "j1".data, title := "Dev".data, company := "Acme".data,
         location := [], url := "https://a.example/x".data,
         source := [], type := [], tags := [] }]).hasJob
      { title := "dev".data, company := "acme".data, location := [],
        url := "https://b.example/y".data, source := [], type := [],
        tags := [], emailId := [], dateReceived := [] } = false := by
  decide

/-- C2 amended: the title/company lookup key is the verbatim
`title + "|" + company` — no lowercasing — so `has` on a cache built from
the store snapshot returns true exactly when the truncated URL matches a
stored truthy URL, or the exact-case `title|company` pair matches a
stored pair whose title and company are both truthy; a candidate
differing only in letter case is not detected. -/
theorem C2_dedup_key_amended (jobs : List Job) (cand : NewJob) :
    (DedupCache.fromJobs jobs).hasJob cand = true ↔
      (∃ j ∈ jobs, j.url ≠ [] ∧ j.url = truncateUrl cand.url) ∨
      (∃ j ∈ jobs, j.title ≠ [] ∧ j.company ≠ [] ∧
        tcKey j.title j.company = tcKey cand.title cand.company) := by
  unfold DedupCache.fromJobs
  rw [hasJob_fromJobsAux]
  have hempty : (⟨[], []⟩ : DedupCache).hasJob cand = false := by
    simp [DedupCache.hasJob, List.contains]
  rw [hempty]
  simp only [Bool.false_eq_true, or_false]
  constructor
  · rintro ⟨j, hj, hcase | hcase⟩
    · exact Or.inl ⟨j, hj, hcase⟩
    · exact Or.inr ⟨j, hj, hcase⟩
  · rintro (⟨j, hj, hcase⟩ | ⟨j, hj, hcase⟩)
    · exact ⟨j, hj, Or.inl hcase⟩
    · exact ⟨j, hj, Or.inr hcase⟩

theorem dropWhile_eq_self_of_all (l : Str)
    (h : ∀ c ∈ l, isJsWs c = false) : l.dropWhile isJsWs = l := by
  cases l with
  | nil => rfl
  | cons c t =>
    rw [List.dropWhile_cons, h c (List.mem_cons_self c t)]
    simp

theorem head_dropWhile_not (p : Char → Bool) (l : Str) :
    ∀ c, (l.dropWhile p).head? = some c → p c = false := by
  induction l with
  | nil => intro c hc; cases hc
  | cons d t ih =>
    intro c hc
    rw [List.dropWhile_cons] at hc
    by_cases hd : p d = true
    · rw [if_pos hd] at hc
      exact ih c hc
    · rw [if_neg hd] at hc
      cases hc
      cases hpd : p d with
      | true => exact absurd hpd hd
      | false => rfl

theorem replaceAllGo_fuel (pat rep : Str) :
    ∀ (f1 f2 : Nat) (s : Str), s.length ≤ f1 → s.length ≤ f2 →
      replaceAllGo pat rep f1 s = replaceAllGo pat rep f2 s := by
  intro f1
  induction f1 with
  | zero =>
    intro f2 s h1 _
    have hs0 : s = [] := List.eq_nil_of_length_eq_zero (Nat.le_zero.mp h1)
    subst hs0
    cases f2 <;> rfl
  | succ n ih =>
    intro f2 s h1 h2
    cases s with
    | nil => cases f2 <;> rfl
    | cons c t =>
      cases f2 with
      | zero => simp at h2
      | succ m =>
        by_cases hp : pat.isPrefixOf (c :: t) ∧ pat ≠ []
        · have hpat1 : 1 ≤ pat.length := by
            cases hpe : pat with
            | nil => exact absurd hpe hp.2
            | cons a l => simp
          simp only [replaceAllGo, if_pos hp]
          refine congrArg (rep ++ ·) (ih m _ ?_ ?_) <;>
            simp only [List.length_drop, List.length_cons] at * <;> omega
        · simp only [replaceAllGo, if_neg hp]
          refine congrArg (c :: ·) (ih m t ?_ ?_) <;>
            simp only [List.length_cons] at h1 h2 <;> omega

theorem replaceAll_nil (pat rep : Str) : replaceAll pat rep [] = [] := rfl

theorem replaceAll_cons (pat rep : Str) (c : Char) (t : Str) :
    replaceAll pat rep (c :: t) =
      if pat.isPrefixOf (c :: t) ∧ pat ≠ [] then
        rep ++ replaceAll pat rep ((c :: t).drop pat.length)
      else c :: replaceAll pat rep t := by
  unfold replaceAll
  by_cases hp : pat.isPrefixOf (c :: t) ∧ pat ≠ []
  · have hpat1 : 1 ≤ pat.length := by
      cases hpe : pat with
      | nil => exact absurd hpe hp.2
      | cons a l => simp
    simp only [List.length_cons, replaceAllGo, if_pos hp]
    refine congrArg (rep ++ ·) (replaceAllGo_fuel pat rep _ _ _ ?_ ?_) <;>
      simp only [List.length_drop, List.length_cons] <;> omega
  · simp only [List.length_cons, replaceAllGo, if_neg hp]

theorem collapseWsGo_fuel :
    ∀ (f1 f2 : Nat) (s : Str), s.length ≤ f1 → s.length ≤ f2 →
      collapseWsGo f1 s = collapseWsGo f2 s := by
  intro f1
  induction f1 with
  | zero =>
    intro f2 s h1 _
    have hs0 : s = [] := List.eq_nil_of_length_eq_zero (Nat.le_zero.mp h1)
    subst hs0
    cases f2 <;> rfl
  | succ n ih =>
    intro f2 s h1 h2
    cases s with
    | nil => cases f2 <;> rfl
    | cons c t =>
      cases f2 with
      | zero => simp at h2
      | succ m =>
        have hdw := (List.dropWhile_sublist (l := t) isJsWs).length_le
        by_cases hc : isJsWs c = true
        · simp only [collapseWsGo, hc, if_true]
          refine congrArg (' ' :: ·) (ih m _ ?_ ?_) <;>
            simp only [List.length_cons] at h1 h2 <;> omega
        · simp only [collapseWsGo, hc, Bool.false_eq_true, if_false]
          refine congrArg (c :: ·) (ih m t ?_ ?_) <;>
            simp only [List.length_cons] at h1 h2 <;> omega

theorem collapseWs_nil : collapseWs [] = [] := rfl

theorem collapseWs_cons_nows (d : Char) (t : Str) (hd : isJsWs d = false) :
    collapseWs (d :: t) = d :: collapseWs t := by
  show collapseWsGo (t.length + 1) (d :: t) = d :: collapseWsGo t.length t
  simp only [collapseWsGo, hd, Bool.false_eq_true, if_false]

theorem collapseWs_cons_ws (d : Char) (t : Str) (hd : isJsWs d = true) :
    collapseWs (d :: t) = ' ' :: collapseWs (t.dropWhile isJsWs) := by
  show collapseWsGo (t.length + 1) (d :: t) =
    ' ' :: collapseWsGo (t.dropWhile isJsWs).length (t.dropWhile isJsWs)
  simp only [collapseWsGo, hd, if_true]
  exact congrArg (' ' :: ·) (collapseWsGo_fuel t.length _ _
    (List.dropWhile_sublist isJsWs).length_le le_rfl)

theorem wsWordsGo_fuel :
    ∀ (f1 f2 : Nat) (s : Str), s.length ≤ f1 → s.length ≤ f2 →
      wsWordsGo f1 s = wsWordsGo f2 s := by
  intro f1
  induction f1 with
  | zero =>
    intro f2 s h1 _
    have hs0 : s = [] := List.eq_nil_of_length_eq_zero (Nat.le_zero.mp h1)
    subst hs0
    cases f2 <;> rfl
  | succ n ih =>
    intro f2 s h1 h2
    cases s with
    | nil => cases f2 <;> rfl
    | cons c t =>
      cases f2 with
      | zero => simp at h2
      | succ m =>
        by_cases hc : isJsWs c = true
        · simp only [wsWordsGo, hc, if_true]
          refine ih m t ?_ ?_ <;>
            simp only [List.length_cons] at h1 h2 <;> omega
        · have hbc : (!isJsWs c) = true := by
            rw [eq_false_of_ne_true (fun h => hc h)]
            rfl
          have hdw := (List.dropWhile_sublist
            (l := t) (fun x => !isJsWs x)).length_le
          simp only [wsWordsGo, hc, Bool.false_eq_true, if_false]
          refine congrArg _ (ih m _ ?_ ?_) <;>
            rw [List.dropWhile_cons, if_pos hbc] <;>
            simp only [List.length_cons] at h1 h2 <;> omega

theorem wsWords_nil : wsWords [] = [] := rfl

theorem wsWords_cons_ws (c : Char) (t : Str) (hc : isJsWs c = true) :
    wsWords (c :: t) = wsWords t := by
  unfold wsWords
  simp only [List.length_cons, wsWordsGo, hc, if_true]

theorem wsWords_cons_nows (c : Char) (t : Str) (hc : isJsWs c = false) :
    wsWords (c :: t) = ((c :: t).takeWhile fun x => !isJsWs x) ::
      wsWords ((c :: t).dropWhile fun x => !isJsWs x) := by
  have hbc : (!isJsWs c) = true := by rw [hc]; rfl
  have hdrop : (c :: t).dropWhile (fun x => !isJsWs x) =
      t.dropWhile fun x => !isJsWs x := by
    rw [List.dropWhile_cons, if_pos hbc]
  show wsWordsGo (t.length + 1) (c :: t) =
    ((c :: t).takeWhile fun x => !isJsWs x) ::
      wsWordsGo ((c :: t).dropWhile fun x => !isJsWs x).length
        ((c :: t).dropWhile fun x => !isJsWs x)
  simp only [wsWordsGo, hc, Bool.false_eq_true, if_false]
  refine congrArg _ (wsWordsGo_fuel t.length _ _ ?_ le_rfl)
  rw [hdrop]
  exact (List.dropWhile_sublist _).length_le

theorem wsWords_dropWhile (s : Str) :
    wsWords (s.dropWhile isJsWs) = wsWords s := by
  induction s with
  | nil => rfl
  | cons c t ih =>
    by_cases hc : isJsWs c = true
    · rw [List.dropWhile_cons, if_pos hc, ih, wsWords_cons_ws c t hc]
    · rw [List.dropWhile_cons, if_neg hc]

theorem collapseWs_append_nows (w r : Str)
    (hw : ∀ c ∈ w, isJsWs c = false) :
    collapseWs (w ++ r) = w ++ collapseWs r := by
  induction w with
  | nil => rfl
  | cons c t ih =>
    rw [List.cons_append,
      collapseWs_cons_nows c _ (hw c (List.mem_cons_self c t)),
      ih fun c hc => hw c (List.mem_cons_of_mem _ hc)]
    rfl

theorem jsTrim_cons_ws (c : Char) (x : Str) (hc : isJsWs c = true) :
    jsTrim (c :: x) = jsTrim x := by
  simp only [jsTrim, List.dropWhile_cons, hc, if_pos]

theorem trimTrailing_append (w x : Str) (hw : ∀ c ∈ w, isJsWs c = false) :
    ((w ++ x).reverse.dropWhile isJsWs).reverse =
      w ++ (x.reverse.dropWhile isJsWs).reverse := by
  rw [List.reverse_append, List.dropWhile_append]
  by_cases hx : (x.reverse.dropWhile isJsWs).isEmpty
  · rw [if_pos hx]
    have hwrev : w.reverse.dropWhile isJsWs = w.reverse :=
      dropWhile_eq_self_of_all w.reverse fun c hc =>
        hw c (List.mem_reverse.mp hc)
    rw [hwrev, List.reverse_reverse]
    have hnil : x.reverse.dropWhile isJsWs = [] := List.isEmpty_iff.mp hx
    rw [hnil]
    simp
  · rw [if_neg hx, List.reverse_append, List.reverse_reverse]

theorem trimTrailing_cons_space (y : Str) :
    ((' ' :: y).reverse.dropWhile isJsWs).reverse =
      if y.reverse.dropWhile isJsWs = [] then []
      else ' ' :: (y.reverse.dropWhile isJsWs).reverse := by
  have hsp : isJsWs ' ' = true := by decide
  rw [List.reverse_cons, List.dropWhile_append]
  cases hnil : y.reverse.dropWhile isJsWs with
  | nil =>
    rw [hnil] at *
    simp [List.dropWhile_cons, hsp]
  | cons a l =>
    rw [hnil] at *
    rw [if_neg (show ¬((a :: l).isEmpty = true) by simp),
      if_neg (show ¬(a :: l = []) by simp), List.reverse_append]
    simp

theorem dropWhile_collapseWs (r : Str)
    (hr : ∀ c, r.head? = some c → isJsWs c = false) :
    (collapseWs r).dropWhile isJsWs = collapseWs r := by
  cases r with
  | nil => rw [collapseWs_nil]; rfl
  | cons d t =>
    have hd := hr d rfl
    rw [collapseWs_cons_nows d t hd, List.dropWhile_cons, hd]
    simp

theorem wsWords_mem_ne_nil :
    ∀ (s : Str) (w : Str), w ∈ wsWords s → w ≠ [] := by
  have H : ∀ (n : Nat) (s : Str), s.length ≤ n → ∀ w ∈ wsWords s, w ≠ [] := by
    intro n
    induction n with
    | zero =>
      intro s hs w hw
      have hs0 : s = [] := List.eq_nil_of_length_eq_zero (Nat.le_zero.mp hs)
      subst hs0
      rw [wsWords_nil] at hw
      cases hw
    | succ n ih =>
      intro s hs w hw
      cases s with
      | nil => rw [wsWords_nil] at hw; cases hw
      | cons c t =>
        by_cases hc : isJsWs c = true
        · rw [wsWords_cons_ws c t hc] at hw
          refine ih t ?_ w hw
          simp only [List.length_cons] at hs
          omega
        · have hcf : isJsWs c = false := eq_false_of_ne_true hc
          have hbc : (!isJsWs c) = true := by simp [hcf]
          rw [wsWords_cons_nows c t hcf] at hw
          rcases List.mem_cons.mp hw with rfl | hw2
          · rw [List.takeWhile_cons, if_pos hbc]
            simp
          · have hlen : ((c :: t).dropWhile fun x => !isJsWs x).length ≤ n := by
              rw [List.dropWhile_cons, if_pos hbc]
              have hle := (List.dropWhile_sublist
                (l := t) fun x => !isJsWs x).length_le
              simp only [List.length_cons] at hs
              omega
            exact ih _ hlen w hw2
  intro s w hw
  exact H s.length s le_rfl w hw

theorem intercalate_single_word (a : Str) :
    List.intercalate " ".data [a] = a := by
  simp [List.intercalate]

theorem intercalate_two_words (a b : Str) (l : List Str) :
    List.intercalate " ".data (a :: b :: l) =
      a ++ ' ' :: List.intercalate " ".data (b :: l) := by
  simp [List.intercalate]

theorem jsTrim_append_nows (w x : Str) (hne : w ≠ [])
    (hw : ∀ c ∈ w, isJsWs c = false) :
    jsTrim (w ++ x) = w ++ (x.reverse.dropWhile isJsWs).reverse := by
  unfold jsTrim
  rw [List.dropWhile_append, dropWhile_eq_self_of_all w hw,
    if_neg (by simpa [List.isEmpty_iff] using hne)]
  exact trimTrailing_append w x hw

theorem trimCollapse_glue_nil (w : Str) (hne : w ≠ [])
    (hw : ∀ c ∈ w, isJsWs c = false) :
    jsTrim (collapseWs (w ++ [])) = List.intercalate " ".data [w] := by
  rw [collapseWs_append_nows w [] hw, collapseWs_nil,
    jsTrim_append_nows w [] hne hw, intercalate_single_word]
  simp

theorem trimCollapse_glue_cons (w : Str) (d : Char) (r : Str)
    (hne : w ≠ []) (hw : ∀ c ∈ w, isJsWs c = false)
    (hd : isJsWs d = true)
    (hIH : jsTrim (collapseWs (r.dropWhile isJsWs)) =
      normalizeWsSpec (r.dropWhile isJsWs)) :
    jsTrim (collapseWs (w ++ d :: r)) =
      List.intercalate " ".data (w :: wsWords (d :: r)) := by
  rw [collapseWs_append_nows w _ hw, jsTrim_append_nows w _ hne hw,
    collapseWs_cons_ws d r hd, trimTrailing_cons_space, wsWords_cons_ws d r hd,
    ← wsWords_dropWhile r]
  have htt : ((collapseWs (r.dropWhile isJsWs)).reverse.dropWhile
      isJsWs).reverse = jsTrim (collapseWs (r.dropWhile isJsWs)) := by
    unfold jsTrim
    rw [dropWhile_collapseWs _ (head_dropWhile_not isJsWs r)]
  cases hwr2 : wsWords (r.dropWhile isJsWs) with
  | nil =>
    have hz : jsTrim (collapseWs (r.dropWhile isJsWs)) = [] := by
      rw [hIH]
      unfold normalizeWsSpec
      rw [hwr2]
      rfl
    have hz2 : (collapseWs (r.dropWhile isJsWs)).reverse.dropWhile
        isJsWs = [] := List.reverse_eq_nil_iff.mp (htt.trans hz)
    rw [if_pos hz2, intercalate_single_word]
    simp
  | cons w2 ws2 =>
    have hnz : jsTrim (collapseWs (r.dropWhile isJsWs)) ≠ [] := by
      rw [hIH]
      unfold normalizeWsSpec
      rw [hwr2]
      cases ws2 with
      | nil =>
        rw [intercalate_single_word]
        exact wsWords_mem_ne_nil _ w2 (hwr2 ▸ List.mem_cons_self w2 [])
      | cons w3 ws3 =>
        rw [intercalate_two_words]
        have := wsWords_mem_ne_nil (r.dropWhile isJsWs) w2
          (hwr2 ▸ List.mem_cons_self w2 (w3 :: ws3))
        intro hcontra
        rcases List.append_eq_nil.mp hcontra with ⟨h1, _⟩
        exact this h1
    have hz2 : (collapseWs (r.dropWhile isJsWs)).reverse.dropWhile
        isJsWs ≠ [] := fun hcon =>
      hnz (htt.symm.trans (by rw [hcon]; rfl))
    rw [if_neg hz2, intercalate_two_words, htt, hIH]
    unfold normalizeWsSpec
    rw [hwr2]

theorem jsTrim_collapseWs_eq (s : Str) :
    jsTrim (collapseWs s) = normalizeWsSpec s := by
  have H : ∀ (n : Nat) (s : Str), s.length ≤ n →
      jsTrim (collapseWs s) = normalizeWsSpec s := by
    intro n
    induction n with
    | zero =>
      intro s hs
      have hs0 : s = [] := List.eq_nil_of_length_eq_zero (Nat.le_zero.mp hs)
      subst hs0
      rw [collapseWs_nil]
      unfold normalizeWsSpec
      rw [wsWords_nil]
      rfl
    | succ n ih =>
      intro s hs
      cases s with
      | nil =>
        rw [collapseWs_nil]
        unfold normalizeWsSpec
        rw [wsWords_nil]
        rfl
      | cons c t =>
        by_cases hc : isJsWs c = true
        · rw [collapseWs_cons_ws c t hc, jsTrim_cons_ws ' ' _ (by decide)]
          have ht : (t.dropWhile isJsWs).length ≤ n := by
            have := (List.dropWhile_sublist (l := t) isJsWs).length_le
            simp only [List.length_cons] at hs
            omega
          rw [ih _ ht]
          unfold normalizeWsSpec
          rw [wsWords_dropWhile t, wsWords_cons_ws c t hc]
        · have hcf : isJsWs c = false := eq_false_of_ne_true hc
          have hbc : (!isJsWs c) = true := by simp [hcf]
          have hw : ∀ x ∈ (c :: t).takeWhile fun x => !isJsWs x,
              isJsWs x = false := by
            intro x hx
            have := List.mem_takeWhile_imp hx
            simpa using this
          have hwne : ((c :: t).takeWhile fun x => !isJsWs x) ≠ [] := by
            rw [List.takeWhile_cons, if_pos hbc]
            simp
          have hsplit :
              ((c :: t).takeWhile fun x => !isJsWs x) ++
                ((c :: t).dropWhile fun x => !isJsWs x) = c :: t :=
            List.takeWhile_append_dropWhile (fun x => !isJsWs x) (c :: t)
          conv_lhs => rw [← hsplit]
          unfold normalizeWsSpec
          rw [wsWords_cons_nows c t hcf]
          cases hR : (c :: t).dropWhile (fun x => !isJsWs x) with
          | nil =>
            rw [wsWords_nil]
            exact trimCollapse_glue_nil _ hwne hw
          | cons d r =>
            have hd : isJsWs d = true := by
              have := head_dropWhile_not (fun x => !isJsWs x) (c :: t) d
                (by rw [hR]; rfl)
              simpa using this
            have hrlen : (r.dropWhile isJsWs).length ≤ n := by
              have h1 := (List.dropWhile_sublist (l := r) isJsWs).length_le
              have h2 := congrArg List.length hR
              have h3 := (List.dropWhile_sublist
                (l := (c : Char) :: t) fun x => !isJsWs x).length_le
              simp only [List.length_cons] at h2 h3 hs ⊢
              omega
            exact trimCollapse_glue_cons _ d r hwne hw hd (ih _ hrlen)
  exact H s.length s le_rfl

/-- C9 counterexample: on `"a&nbsp;b"` the code's `cleanText` yields
`"a b"` while the spec's five-entity function leaves `"a&nbsp;b"` — the
code also unescapes `&nbsp;`, so the functions differ. -/
theorem C9_counterexample :
    ¬(cleanText "a&nbsp;b".data = cleanTextSpec "a&nbsp;b".data) := by
  decide

/-- C9 amended: for every input string, `cleanText` equals the function
that unescapes the six HTML entities `&amp; &lt; &gt; &quot; &#39;
&nbsp;` (in that order, `&nbsp;` to a space), then collapses every run of
whitespace to a single space and trims — stated via the words-joined
normal form. -/
theorem C9_cleanText_amended (text : Str) :
    cleanText text = cleanTextSpecAmended text := by
  unfold cleanText cleanTextSpecAmended
  exact jsTrim_collapseWs_eq _

mutual

theorem findHtml_none (decode : Str → Str) :
    ∀ p : GmailMessagePart, hasHtmlPart p = false →
      findHtml decode p = none
  | .mk mt hs bd parts, h => by
    have hsplit : (match mt with
        | some m => decide (m = "text/html".data)
        | none => false) = false ∧ hasHtmlPartList parts = false := by
      have := h
      simp only [hasHtmlPart, Bool.or_eq_false_iff] at this
      constructor
      · cases mt with
        | none => rfl
        | some m =>
          simp only [decide_eq_false_iff_not]
          intro hm
          rw [hm] at this
          simp at this
      · exact this.2
    have hlist := findHtmlList_none decode parts hsplit.2
    cases mt with
    | none => simpa [findHtml] using hlist
    | some m =>
      cases bd with
      | none => simpa [findHtml] using hlist
      | some d =>
        have hm : ¬(m = "text/html".data) := by
          have := hsplit.1
          simpa using this
        simp only [findHtml,
          if_neg (show ¬(m = "text/html".data ∧ d ≠ []) from
            fun hand => hm hand.1)]
        exact hlist

theorem findHtmlList_none (decode : Str → Str) :
    ∀ ps : List GmailMessagePart, hasHtmlPartList ps = false →
      findHtmlList decode ps = none
  | [], _ => rfl
  | p :: ps, h => by
    have hsplit : hasHtmlPart p = false ∧ hasHtmlPartList ps = false := by
      simpa [hasHtmlPartList, Bool.or_eq_false_iff] using h
    have hp := findHtml_none decode p hsplit.1
    simp only [findHtmlList, hp]
    exact findHtmlList_none decode ps hsplit.2

end

/-- C10: a message whose MIME tree contains no `text/html` part (or that
has no payload at all) makes `parseEmail` return the empty list — for
every HTML parser, body decoder and parser implementation, so no parser
is ever consulted; a missing HTML body is zero jobs, never an error. -/
theorem C10_no_html_no_jobs (dom : Str → DomDoc) (decode : Str → Str)
    (impl : ParserImpls) (msg : GmailMessage)
    (h : ∀ p, msg.payload = some p → hasHtmlPart p = false) :
    parseEmail dom decode impl msg = [] := by
  unfold parseEmail extractHtmlBody
  cases hp : msg.payload with
  | none => rfl
  | some p => simp [findHtml_none decode p (h p hp)]

/-- Witness for C10: a concrete message whose payload is a
`multipart/alternative` tree with a single `text/plain` child. -/
theorem C10_witness :
    (∀ p, (GmailMessage.mk "m1".data none
        (some (.mk (some "multipart/alternative".data) []
          none [.mk (some "text/plain".data) [] (some "aGk=".data) []]))).payload =
        some p → hasHtmlPart p = false) ∧
      parseEmail (fun _ => ⟨[]⟩) id ⟨fun _ _ => [], fun _ _ => []⟩
        (GmailMessage.mk "m1".data none
          (some (.mk (some "multipart/alternative".data) []
            none [.mk (some "text/plain".data) [] (some "aGk=".data) []]))) = [] :=
  ⟨fun p hp => by cases hp; decide,
   C10_no_html_no_jobs _ _ _ _ (fun p hp => by cases hp; decide)⟩

/-- C5: for every message with a truthy HTML body, dispatch extracts the
sender as the bracketed address of the From header when present (else the
raw header), lowercased, tries the specific parsers in the fixed order
LinkedIn, Indeed, Glassdoor, uses exactly the first whose `canParse`
accepts that sender, and falls back to the generic parser only when none
match — the output is exactly that one parser's output. -/
theorem C5_dispatch_first_match (dom : Str → DomDoc) (decode : Str → Str)
    (impl : ParserImpls) (msg : GmailMessage) (h : Str)
    (hh : extractHtmlBody decode msg = some h) (hne : h ≠ []) :
    getSenderEmail msg =
      jsLower ((bracketCapture ((getHeader msg "From".data).getD [])).getD
        ((getHeader msg "From".data).getD [])) ∧
    parseEmail dom decode impl msg =
      (selectParserSpec dom impl (getSenderEmail msg)).parse h msg := by
  constructor
  · unfold getSenderEmail
    cases hbc : bracketCapture ((getHeader msg "From".data).getD []) <;>
      simp [hbc]
  · by_cases h1 : isSubstr "linkedin.com".data (getSenderEmail msg) <;>
      by_cases h2 : isSubstr "indeed.com".data (getSenderEmail msg) <;>
        by_cases h3 : isSubstr "glassdoor.com".data (getSenderEmail msg) <;>
          simp [parseEmail, parsersList, firstSpecific, selectParserSpec,
            linkedinParser, indeedParser, glassdoorParser, genericParser,
            genericParse, hh, hne, h1, h2, h3]

/-- Witness for C5: a LinkedIn-sender message with a one-part HTML body. -/
theorem C5_witness :
    (extractHtmlBody id (GmailMessage.mk "m1".data none
        (some (.mk (some "text/html".data)
          [⟨"From".data, "LinkedIn <jobs-noreply@linkedin.com>".data⟩]
          (some "<html>".data) []))) = some "<html>".data) ∧
      ("<html>".data ≠ ([] : Str)) ∧
      (getSenderEmail (GmailMessage.mk "m1".data none
          (some (.mk (some "text/html".data)
            [⟨"From".data, "LinkedIn <jobs-noreply@linkedin.com>".data⟩]
            (some "<html>".data) []))) =
        jsLower ((bracketCapture ((getHeader (GmailMessage.mk "m1".data none
          (some (.mk (some "text/html".data)
            [⟨"From".data, "LinkedIn <jobs-noreply@linkedin.com>".data⟩]
            (some "<html>".data) []))) "From".data).getD [])).getD
          ((getHeader (GmailMessage.mk "m1".data none
            (some (.mk (some "text/html".data)
              [⟨"From".data, "LinkedIn <jobs-noreply@linkedin.com>".data⟩]
              (some "<html>".data) []))) "From".data).getD [])) ∧
        parseEmail (fun _ => ⟨[]⟩) id ⟨fun _ _ => [], fun _ _ => []⟩
            (GmailMessage.mk "m1".data none
              (some (.mk (some "text/html".data)
                [⟨"From".data, "LinkedIn <jobs-noreply@linkedin.com>".data⟩]
                (some "<html>".data) []))) =
          (selectParserSpec (fun _ => ⟨[]⟩) ⟨fun _ _ => [], fun _ _ => []⟩
            (getSenderEmail (GmailMessage.mk "m1".data none
              (some (.mk (some "text/html".data)
                [⟨"From".data, "LinkedIn <jobs-noreply@linkedin.com>".data⟩]
                (some "<html>".data) []))))).parse "<html>".data
            (GmailMessage.mk "m1".data none
              (some (.mk (some "text/html".data)
                [⟨"From".data, "LinkedIn <jobs-noreply@linkedin.com>".data⟩]
                (some "<html>".data) [])))) :=
  ⟨by decide, by decide,
   C5_dispatch_first_match _ _ _ _ _ (by decide) (by decide)⟩

theorem groupLinksAux_all (J fh : Str) (acc : List Anchor) :
    ∀ links : List Anchor,
      (∀ a ∈ links, ∃ href, a.href = some href ∧ href ≠ [] ∧
        extractJobKey href = some J) →
      groupLinksAux [(J, acc, fh)] links = [(J, acc ++ links, fh)] := by
  intro links
  induction links generalizing acc with
  | nil => intro _; simp [groupLinksAux]
  | cons a rest ih =>
    intro h
    obtain ⟨href, ha, hne, hkey⟩ := h a (List.mem_cons_self a rest)
    have hrest := fun x hx => h x (List.mem_cons_of_mem a hx)
    simp only [groupLinksAux, ha, hkey, if_neg hne]
    rw [show addToGroups J a href [(J, acc, fh)] = [(J, acc ++ [a], fh)] by
      simp [addToGroups]]
    rw [ih (acc ++ [a]) hrest]
    simp

theorem groupLinks_single (J : Str) :
    ∀ links : List Anchor, links ≠ [] →
      (∀ a ∈ links, ∃ href, a.href = some href ∧ href ≠ [] ∧
        extractJobKey href = some J) →
      ∃ fh, groupLinks links = [(J, links, fh)] := by
  intro links hne h
  cases links with
  | nil => exact absurd rfl hne
  | cons a rest =>
    obtain ⟨href, ha, hrne, hkey⟩ := h a (List.mem_cons_self a rest)
    refine ⟨href, ?_⟩
    unfold groupLinks
    simp only [groupLinksAux, ha, hkey, if_neg hrne]
    rw [show addToGroups J a href [] = [(J, [a], href)] from rfl]
    rw [groupLinksAux_all J href [a] rest
      fun x hx => h x (List.mem_cons_of_mem a hx)]
    rfl

/-- C6: when every `a[href*="linkedin.com/comm/jobs/view"]` anchor of the
document references the same numeric job id (for instance, the same
job-view URL under different tracking suffixes), the LinkedIn parser
groups them into a single group and emits exactly one job, provided the
group yields a title of the required minimum length. -/
theorem C6_linkedin_one_per_group (dom : Str → DomDoc) (html : Str)
    (J : Str) (links : List Anchor)
    (hlinks : querySelHref "linkedin.com/comm/jobs/view".data (dom html) =
      links)
    (hne : links ≠ [])
    (hkeys : ∀ a ∈ links, ∃ href, a.href = some href ∧ href ≠ [] ∧
      extractJobKey href = some J)
    (htitle : (links.foldl liLinkStep ([], [], [])).1 ≠ [] ∧
      3 ≤ (links.foldl liLinkStep ([], [], [])).1.length) :
    (linkedinParse dom html).length = 1 := by
  unfold linkedinParse
  rw [hlinks]
  show (List.filterMap liEmitGroup (groupLinks links)).length = 1
  obtain ⟨fh, hg⟩ := groupLinks_single J links hne hkeys
  rw [hg]
  unfold liEmitGroup
  obtain ⟨ht1, ht2⟩ := htitle
  rcases hfold : links.foldl liLinkStep ([], [], []) with ⟨t, c, l⟩
  rw [hfold] at ht1 ht2
  have ht1' : t ≠ [] := ht1
  have ht2' : 3 ≤ t.length := ht2
  simp only [List.filterMap, hfold]
  rw [if_neg (by push_neg; exact ⟨ht1', by omega⟩)]
  rfl

/-- Witness for C6: three anchors with the same job id `123` under
different tracking suffixes; one anchor carries the title, another the
company/location paragraph. -/
theorem C6_witness :
    (querySelHref "linkedin.com/comm/jobs/view".data
        (⟨[⟨some "https://www.linkedin.com/comm/jobs/view/123/?trk=aaa".data,
        "Software Engineer".data, []⟩,
      ⟨some "https://www.linkedin.com/comm/jobs/view/123/?trk=bbb".data,
        "meta".data, [⟨none, "Acme Corp · Berlin".data⟩]⟩,
      ⟨some "https://www.linkedin.com/comm/jobs/view/123/?trk=ccc".data,
        "x".data, []⟩]⟩ : DomDoc) =
      ([⟨some "https://www.linkedin.com/comm/jobs/view/123/?trk=aaa".data,
        "Software Engineer".data, []⟩,
      ⟨some "https://www.linkedin.com/comm/jobs/view/123/?trk=bbb".data,
        "meta".data, [⟨none, "Acme Corp · Berlin".data⟩]⟩,
      ⟨some "https://www.linkedin.com/comm/jobs/view/123/?trk=ccc".data,
        "x".data, []⟩] : List Anchor)) ∧
    ([⟨some "https://www.linkedin.com/comm/jobs/view/123/?trk=aaa".data,
        "Software Engineer".data, []⟩,
      ⟨some "https://www.linkedin.com/comm/jobs/view/123/?trk=bbb".data,
        "meta".data, [⟨none, "Acme Corp · Berlin".data⟩]⟩,
      ⟨some "https://www.linkedin.com/comm/jobs/view/123/?trk=ccc".data,
        "x".data, []⟩] ≠ ([] : List Anchor)) ∧
    (∀ a ∈ ([⟨some "https://www.linkedin.com/comm/jobs/view/123/?trk=aaa".data,
        "Software Engineer".data, []⟩,
      ⟨some "https://www.linkedin.com/comm/jobs/view/123/?trk=bbb".data,
        "meta".data, [⟨none, "Acme Corp · Berlin".data⟩]⟩,
      ⟨some "https://www.linkedin.com/comm/jobs/view/123/?trk=ccc".data,
        "x".data, []⟩] : List Anchor),
      ∃ href, a.href = some href ∧ href ≠ [] ∧
        extractJobKey href = some "123".data) ∧
    ((([⟨some "https://www.linkedin.com/comm/jobs/view/123/?trk=aaa".data,
        "Software Engineer".data, []⟩,
      ⟨some "https://www.linkedin.com/comm/jobs/view/123/?trk=bbb".data,
        "meta".data, [⟨none, "Acme Corp · Berlin".data⟩]⟩,
      ⟨some "https://www.linkedin.com/comm/jobs/view/123/?trk=ccc".data,
        "x".data, []⟩] : List Anchor).foldl
        liLinkStep ([], [], [])).1 ≠ [] ∧
      3 ≤ (([⟨some "https://www.linkedin.com/comm/jobs/view/123/?trk=aaa".data,
        "Software Engineer".data, []⟩,
      ⟨some "https://www.linkedin.com/comm/jobs/view/123/?trk=bbb".data,
        "meta".data, [⟨none, "Acme Corp · Berlin".data⟩]⟩,
      ⟨some "https://www.linkedin.com/comm/jobs/view/123/?trk=ccc".data,
        "x".data, []⟩] : List Anchor).foldl
        liLinkStep ([], [], [])).1.length) ∧
    (linkedinParse (fun _ =>
        (⟨[⟨some "https://www.linkedin.com/comm/jobs/view/123/?trk=aaa".data,
        "Software Engineer".data, []⟩,
      ⟨some "https://www.linkedin.com/comm/jobs/view/123/?trk=bbb".data,
        "meta".data, [⟨none, "Acme Corp · Berlin".data⟩]⟩,
      ⟨some "https://www.linkedin.com/comm/jobs/view/123/?trk=ccc".data,
        "x".data, []⟩]⟩ : DomDoc))
      "body".data).length = 1 :=
  ⟨by decide, by decide, by decide, by decide,
   C6_linkedin_one_per_group _ _ "123".data
     ([⟨some "https://www.linkedin.com/comm/jobs/view/123/?trk=aaa".data,
        "Software Engineer".data, []⟩,
      ⟨some "https://www.linkedin.com/comm/jobs/view/123/?trk=bbb".data,
        "meta".data, [⟨none, "Acme Corp · Berlin".data⟩]⟩,
      ⟨some "https://www.linkedin.com/comm/jobs/view/123/?trk=ccc".data,
        "x".data, []⟩] : List Anchor)
     (by decide) (by decide) (by decide) (by decide)⟩

/-- C7 counterexample: two fresh candidates; the store rejects the first
persist.  The Saving loop (which has no per-candidate try/catch)
propagates the rejection: the result is a run-aborting error with zero
jobs saved, and the second candidate is never attempted — it is not
"logged and skipped with the pipeline continuing", which would have
persisted the second candidate and succeeded. -/
theorem C7_counterexample :
    savePhaseE (fun j => decide (j.title ≠ "A".data)) ⟨[], []⟩
      [{ title := "A".data, company := "C1".data, location := [],
         url := "https://a.example/1".data, source := [], type := [],
         tags := [], emailId := [], dateReceived := [] },
       { title := "B".data, company := "C2".data, location := [],
         url := "https://a.example/2".data, source := [], type := [],
         tags := [], emailId := [], dateReceived := [] }] =
      .error 0 := by
  rfl

/-- C7 amended: when one candidate's persist is rejected during the
Saving phase, the whole loop aborts at that candidate: whatever prefix
was already processed successfully (persisting `n` jobs), and whatever
candidates follow, the loop result is the exception carrying exactly `n`
— the failing candidate is not skipped and the remaining candidates are
never attempted (the result does not depend on them). -/
theorem C7_persist_failure_aborts (f : NewJob → Bool) (c : DedupCache)
    (pre : List NewJob) (j : NewJob) (post : List NewJob)
    (c' : DedupCache) (n : Nat)
    (hok : savePhaseE f c pre = .ok (c', n))
    (hnew : c'.hasJob (safeJob j) = false)
    (hfail : f (safeJob j) = false) :
    savePhaseE f c (pre ++ j :: post) = .error n := by
  induction pre generalizing c n with
  | nil =>
    have hc : c' = c ∧ n = 0 := by
      have := hok
      simp only [savePhaseE] at this
      cases this
      exact ⟨rfl, rfl⟩
    obtain ⟨rfl, rfl⟩ := hc
    simp only [List.nil_append, savePhaseE, addJobIfNotExistsE, hnew,
      Bool.false_eq_true, if_false, hfail]
  | cons a pre' ih =>
    simp only [savePhaseE] at hok
    simp only [List.cons_append, savePhaseE]
    cases hstep : addJobIfNotExistsE f c a with
    | error e => rw [hstep] at hok; cases hok
    | ok r =>
      obtain ⟨saved, c₁⟩ := r
      rw [hstep] at hok
      dsimp only at hok ⊢
      cases hrec : savePhaseE f c₁ pre' with
      | error m => rw [hrec] at hok; cases hok
      | ok r2 =>
        obtain ⟨cF, m⟩ := r2
        rw [hrec] at hok
        have hcf : cF = c' ∧ (if saved then 1 else 0) + m = n := by
          cases hok
          exact ⟨rfl, rfl⟩
        obtain ⟨rfl, hn⟩ := hcf
        simp only [List.append_eq]
        rw [ih c₁ m hrec]
        dsimp only
        rw [hn]

/-- Witness for C7: the first candidate persists, the second candidate's
persist is rejected, and a third candidate follows; the loop aborts with
exactly one job saved. -/
theorem C7_witness :
    (savePhaseE (fun j => decide (j.title ≠ "B".data)) ⟨[], []⟩
        [{ title := "A".data, company := "C1".data, location := [], url := "https://a.example/1".data, source := [], type := [], tags := [], emailId := [], dateReceived := [] }] =
      .ok (⟨["https://a.example/1".data], ["A|C1".data]⟩, 1)) ∧
    (DedupCache.hasJob ⟨["https://a.example/1".data], ["A|C1".data]⟩
        (safeJob { title := "B".data, company := "C2".data, location := [], url := "https://a.example/2".data, source := [], type := [], tags := [], emailId := [], dateReceived := [] }) = false) ∧
    ((fun j => decide (j.title ≠ "B".data))
        (safeJob { title := "B".data, company := "C2".data, location := [], url := "https://a.example/2".data, source := [], type := [], tags := [], emailId := [], dateReceived := [] }) = false) ∧
    savePhaseE (fun j => decide (j.title ≠ "B".data)) ⟨[], []⟩
        ([{ title := "A".data, company := "C1".data, location := [], url := "https://a.example/1".data, source := [], type := [], tags := [], emailId := [], dateReceived := [] }] ++
          { title := "B".data, company := "C2".data, location := [], url := "https://a.example/2".data, source := [], type := [], tags := [], emailId := [], dateReceived := [] } ::
          [{ title := "D".data, company := "C3".data, location := [], url := "https://a.example/3".data, source := [], type := [], tags := [], emailId := [], dateReceived := [] }]) =
      .error 1 :=
  ⟨by rfl, by rfl, by rfl,
   C7_persist_failure_aborts _ _ _ _ _ _ _ (by rfl) (by rfl) (by rfl)⟩

theorem replaceAll_id_of_not_contains (pat rep : Str) :
    ∀ s : Str, isSubstr pat s = false → pat ≠ [] →
      replaceAll pat rep s = s := by
  intro s
  induction s with
  | nil => intro _ _; rfl
  | cons c t ih =>
    intro hsub hne
    have hsplit : pat.isPrefixOf (c :: t) = false ∧ isSubstr pat t = false := by
      simpa [isSubstr, Bool.or_eq_false_iff] using hsub
    rw [replaceAll_cons,
      if_neg (fun hand => by rw [hsplit.1] at hand; cases hand.1),
      ih hsplit.2 hne]

theorem takeWhile_append_stop (p : Char → Bool) (a b : Str)
    (ha : ∀ c ∈ a, p c = true)
    (hb : ∀ c, b.head? = some c → p c = false) :
    (a ++ b).takeWhile p = a := by
  induction a with
  | nil =>
    cases b with
    | nil => rfl
    | cons c t =>
      simp only [List.nil_append, List.takeWhile_cons, hb c rfl]
      rfl
  | cons c t ih =>
    rw [List.cons_append, List.takeWhile_cons,
      ha c (List.mem_cons_self c t)]
    simp only [if_true]
    rw [ih fun x hx => ha x (List.mem_cons_of_mem c hx)]

theorem drop_takeWhile (p : Char → Bool) (l : Str) :
    l.drop (l.takeWhile p).length = l.dropWhile p := by
  calc l.drop (l.takeWhile p).length
      = (l.takeWhile p ++ l.dropWhile p).drop (l.takeWhile p).length := by
        rw [List.takeWhile_append_dropWhile]
    _ = l.dropWhile p := List.drop_left _ _

theorem splitOnChar_ne_nil (ch : Char) (s : Str) : splitOnChar ch s ≠ [] := by
  cases s with
  | nil => simp [splitOnChar]
  | cons c t =>
    by_cases hc : c = ch
    · simp [splitOnChar, hc]
    · simp only [splitOnChar, if_neg hc]
      cases splitOnChar ch t <;> simp

theorem splitOnChar_not_mem (ch : Char) :
    ∀ s : Str, ch ∉ s → splitOnChar ch s = [s] := by
  intro s
  induction s with
  | nil => intro _; rfl
  | cons c t ih =>
    intro h
    have hc : ¬(c = ch) := fun hcc => h (hcc ▸ List.mem_cons_self c t)
    have ht : ch ∉ t := fun hm => h (List.mem_cons_of_mem c hm)
    simp only [splitOnChar, if_neg hc, ih ht]

theorem splitOnChar_append (ch : Char) (a b : Str) (h : ch ∉ a) :
    splitOnChar ch (a ++ ch :: b) = a :: splitOnChar ch b := by
  induction a with
  | nil => simp [splitOnChar]
  | cons c t ih =>
    have hc : ¬(c = ch) := fun hcc => h (hcc ▸ List.mem_cons_self c t)
    have ht : ch ∉ t := fun hm => h (List.mem_cons_of_mem c hm)
    rw [List.cons_append]
    simp only [splitOnChar, if_neg hc, ih ht]

theorem splitOnChar_seg_sub (ch : Char) :
    ∀ s : Str, ∀ seg ∈ splitOnChar ch s, ∀ c ∈ seg, c ∈ s := by
  intro s
  induction s with
  | nil =>
    intro seg hseg c hc
    simp only [splitOnChar, List.mem_singleton] at hseg
    subst hseg
    cases hc
  | cons a t ih =>
    intro seg hseg c hc
    by_cases ha : a = ch
    · simp only [splitOnChar, if_pos ha, List.mem_cons] at hseg
      rcases hseg with rfl | hseg
      · cases hc
      · exact List.mem_cons_of_mem a (ih seg hseg c hc)
    · simp only [splitOnChar, if_neg ha] at hseg
      cases hsp : splitOnChar ch t with
      | nil => exact absurd hsp (splitOnChar_ne_nil ch t)
      | cons s0 ss =>
        rw [hsp] at hseg
        rcases List.mem_cons.mp hseg with rfl | hseg2
        · rcases List.mem_cons.mp hc with rfl | hc2
          · exact List.mem_cons_self c t
          · exact List.mem_cons_of_mem a
              (ih s0 (hsp ▸ List.mem_cons_self s0 ss) c hc2)
        · exact List.mem_cons_of_mem a
            (ih seg (hsp ▸ List.mem_cons_of_mem s0 hseg2) c hc)

theorem splitOnChar_seg_not_mem (ch : Char) :
    ∀ s : Str, ∀ seg ∈ splitOnChar ch s, ch ∉ seg := by
  intro s
  induction s with
  | nil =>
    intro seg hseg
    simp only [splitOnChar, List.mem_singleton] at hseg
    subst hseg
    simp
  | cons a t ih =>
    intro seg hseg
    by_cases ha : a = ch
    · simp only [splitOnChar, if_pos ha, List.mem_cons] at hseg
      rcases hseg with rfl | hseg
      · simp
      · exact ih seg hseg
    · simp only [splitOnChar, if_neg ha] at hseg
      cases hsp : splitOnChar ch t with
      | nil => exact absurd hsp (splitOnChar_ne_nil ch t)
      | cons s0 ss =>
        rw [hsp] at hseg
        rcases List.mem_cons.mp hseg with rfl | hseg2
        · intro hmem
          rcases List.mem_cons.mp hmem with rfl | hmem2
          · exact ha rfl
          · exact ih s0 (hsp ▸ List.mem_cons_self s0 ss) hmem2
        · exact ih seg (hsp ▸ List.mem_cons_of_mem s0 hseg2)

theorem parseQuerySeg_pair (n v : Str) (hn : ∀ c ∈ n, c ≠ '=') :
    parseQuerySeg (n ++ '=' :: v) = some (n, v) := by
  have hne : n ++ '=' :: v ≠ [] := by simp
  have htw : (n ++ '=' :: v).takeWhile (fun c => decide (c ≠ '=')) = n := by
    refine takeWhile_append_stop _ n ('=' :: v) ?_ ?_
    · intro c hc
      simp [hn c hc]
    · intro c hc
      cases hc
      decide
  unfold parseQuerySeg
  rw [if_neg hne]
  simp only [htw]
  rw [List.drop_left]
  rfl

theorem serializePairs_chars (ch : Char) (hne : ch ≠ '=' ∧ ch ≠ '&') :
    ∀ ps : List (Str × Str),
      (∀ p ∈ ps, ch ∉ p.1 ∧ ch ∉ p.2) → ch ∉ serializePairs ps := by
  intro ps
  induction ps with
  | nil => intro _; simp [serializePairs]
  | cons p rest ih =>
    intro h
    obtain ⟨n, v⟩ := p
    have hp := h (n, v) (List.mem_cons_self _ _)
    cases rest with
    | nil =>
      rw [show serializePairs [(n, v)] = n ++ '=' :: v from rfl]
      intro hmem
      rcases List.mem_append.mp hmem with hc | hc
      · exact hp.1 hc
      · rcases List.mem_cons.mp hc with rfl | hc
        · exact hne.1 rfl
        · exact hp.2 hc
    | cons p2 rest2 =>
      rw [show serializePairs ((n, v) :: p2 :: rest2) =
        n ++ '=' :: v ++ '&' :: serializePairs (p2 :: rest2) from rfl]
      intro hmem
      rcases List.mem_append.mp hmem with hc | hc
      · rcases List.mem_append.mp hc with hc | hc
        · exact hp.1 hc
        · rcases List.mem_cons.mp hc with rfl | hc
          · exact hne.1 rfl
          · exact hp.2 hc
      · rcases List.mem_cons.mp hc with rfl | hc
        · exact hne.2 rfl
        · exact ih (fun q hq => h q (List.mem_cons_of_mem _ hq)) hc

theorem parseQueryPairs_serializePairs :
    ∀ ps : List (Str × Str), ps ≠ [] →
      (∀ p ∈ ps, (∀ c ∈ p.1, c ≠ '&' ∧ c ≠ '=') ∧ (∀ c ∈ p.2, c ≠ '&')) →
      parseQueryPairs (serializePairs ps) = ps := by
  intro ps
  induction ps with
  | nil => intro h _; exact absurd rfl h
  | cons p rest ih =>
    intro _ hwf
    obtain ⟨n, v⟩ := p
    have hp := hwf (n, v) (List.mem_cons_self _ _)
    have hampn : '&' ∉ n := fun hm => (hp.1 '&' hm).1 rfl
    have hampv : '&' ∉ v := fun hm => hp.2 '&' hm rfl
    have hamp : '&' ∉ n ++ '=' :: v := by
      intro hmem
      rcases List.mem_append.mp hmem with hc | hc
      · exact hampn hc
      · rcases List.mem_cons.mp hc with hc | hc
        · cases hc
        · exact hampv hc
    have heqn : ∀ c ∈ n, c ≠ '=' := fun c hc => (hp.1 c hc).2
    cases rest with
    | nil =>
      unfold parseQueryPairs
      rw [show serializePairs [(n, v)] = n ++ '=' :: v from rfl,
        splitOnChar_not_mem '&' _ hamp, List.filterMap_cons,
        parseQuerySeg_pair n v heqn, List.filterMap_nil]
    | cons p2 rest2 =>
      unfold parseQueryPairs
      rw [show serializePairs ((n, v) :: p2 :: rest2) =
          (n ++ '=' :: v) ++ '&' :: serializePairs (p2 :: rest2) from by
        simp [serializePairs],
        splitOnChar_append '&' _ _ hamp, List.filterMap_cons,
        parseQuerySeg_pair n v heqn]
      have ihres := ih (by simp) fun q hq => hwf q (List.mem_cons_of_mem _ hq)
      unfold parseQueryPairs at ihres
      rw [ihres]

theorem parseUrl_serializeUrl (x : UrlObj) (hwf : UrlWF x) :
    parseUrl (serializeUrl x) = some x := by
  obtain ⟨sch, host, path, q, f⟩ := x
  obtain ⟨hs1, hs2, hh1, hh2, hp1, hpt, hp3, hq⟩ := hwf
  dsimp only at hs1 hs2 hh1 hh2 hp1 hpt hp3 hq
  have hpathTW1 : path.takeWhile (fun c => decide (c ≠ '#')) = path :=
    List.takeWhile_eq_self_iff.mpr fun c hc => by simp [(hp3 c hc).2]
  have hpathTW2 : path.takeWhile (fun c => decide (c ≠ '?')) = path :=
    List.takeWhile_eq_self_iff.mpr fun c hc => by simp [(hp3 c hc).1]
  cases q with
  | none =>
    cases f with
    | none =>
      have hser : serializeUrl ⟨sch, host, path, none, none⟩ =
          sch ++ ("://".data ++ (host ++ path)) := by
        unfold serializeUrl
        simp [List.append_assoc]
      rw [hser]
      have e1 : (sch ++ ("://".data ++ (host ++ path))).takeWhile
          isSchemeChar = sch := by
        refine takeWhile_append_stop _ _ _ hs2 ?_
        intro c hc
        rw [show ("://".data ++ (host ++ path)).head? = some ':' from rfl]
          at hc
        cases hc
        decide
      have e3 : "://".data.isPrefixOf ("://".data ++ (host ++ path)) =
          true := by
        simp [List.isPrefixOf_iff_prefix]
      have e5 : (host ++ path).takeWhile (fun c => !isHostEnd c) = host := by
        refine takeWhile_append_stop _ _ _
          (fun c hc => by rw [hh2 c hc]; rfl) ?_
        intro c hc
        obtain ⟨pt, hptt⟩ := hpt
        rw [hptt] at hc
        cases hc
        decide
      simp only [parseUrl, e1, List.drop_left, e3, if_true, ne_eq,
        not_false_eq_true, if_neg hs1]
      rw [List.drop_left' (show ("://".data : Str).length = 3 from rfl)]
      simp only [e5, if_neg hh1, List.drop_left, hpathTW1, hpathTW2,
        if_pos rfl, if_neg hp1]
      simp
    | some fr =>
      have hser : serializeUrl ⟨sch, host, path, none, some fr⟩ =
          sch ++ ("://".data ++ (host ++ (path ++ '#' :: fr))) := by
        unfold serializeUrl
        simp [List.append_assoc]
      rw [hser]
      have e1 : (sch ++ ("://".data ++ (host ++ (path ++ '#' :: fr)))).takeWhile
          isSchemeChar = sch := by
        refine takeWhile_append_stop _ _ _ hs2 ?_
        intro c hc
        rw [show ("://".data ++ (host ++ (path ++ '#' :: fr))).head? =
          some ':' from rfl] at hc
        cases hc
        decide
      have e3 : "://".data.isPrefixOf
          ("://".data ++ (host ++ (path ++ '#' :: fr))) = true := by
        simp [List.isPrefixOf_iff_prefix]
      have e5 : (host ++ (path ++ '#' :: fr)).takeWhile
          (fun c => !isHostEnd c) = host := by
        refine takeWhile_append_stop _ _ _
          (fun c hc => by rw [hh2 c hc]; rfl) ?_
        intro c hc
        obtain ⟨pt, hptt⟩ := hpt
        rw [hptt] at hc
        cases hc
        decide
      have eA : (path ++ '#' :: fr).takeWhile (fun c => decide (c ≠ '#')) =
          path := by
        refine takeWhile_append_stop _ _ _
          (fun c hc => by simp [(hp3 c hc).2]) ?_
        intro c hc
        cases hc
        decide
      have hlen : ¬(path.length = (path ++ '#' :: fr).length) := by
        simp
      have edrop : (path ++ '#' :: fr).drop (path.length + 1) = fr := by
        rw [show path ++ '#' :: fr = (path ++ ['#']) ++ fr by simp]
        rw [List.drop_left' (by simp)]
      simp only [parseUrl, e1, List.drop_left, e3, if_true, ne_eq,
        not_false_eq_true, if_neg hs1]
      rw [List.drop_left' (show ("://".data : Str).length = 3 from rfl)]
      simp only [e5, if_neg hh1, List.drop_left, eA, hpathTW2,
        if_neg hlen, edrop, if_pos rfl, if_neg hp1]
      simp
  | some ps =>
    obtain ⟨hpsne, hpswf⟩ := hq ps rfl
    have hsp_hash : '#' ∉ serializePairs ps := by
      refine serializePairs_chars '#' ⟨by decide, by decide⟩ ps ?_
      intro p hp
      exact ⟨fun hm => ((hpswf p hp).1 '#' hm).2.2 rfl,
        fun hm => ((hpswf p hp).2 '#' hm).2 rfl⟩
    have hqp : parseQueryPairs (serializePairs ps) = ps := by
      refine parseQueryPairs_serializePairs ps hpsne ?_
      intro p hp
      exact ⟨fun c hc => ⟨((hpswf p hp).1 c hc).1, ((hpswf p hp).1 c hc).2.1⟩,
        fun c hc => ((hpswf p hp).2 c hc).1⟩
    have eQ : (path ++ '?' :: serializePairs ps).takeWhile
        (fun c => decide (c ≠ '?')) = path := by
      refine takeWhile_append_stop _ _ _
        (fun c hc => by simp [(hp3 c hc).1]) ?_
      intro c hc
      cases hc
      decide
    have hlenQ : ¬(path.length = (path ++ '?' :: serializePairs ps).length) := by
      simp
    have edropQ : (path ++ '?' :: serializePairs ps).drop (path.length + 1) =
        serializePairs ps := by
      rw [show path ++ '?' :: serializePairs ps =
        (path ++ ['?']) ++ serializePairs ps by simp]
      rw [List.drop_left' (by simp)]
    cases f with
    | none =>
      have hser : serializeUrl ⟨sch, host, path, some ps, none⟩ =
          sch ++ ("://".data ++ (host ++ (path ++ '?' :: serializePairs ps))) := by
        unfold serializeUrl
        simp [List.append_assoc]
      rw [hser]
      have e1 : (sch ++ ("://".data ++
          (host ++ (path ++ '?' :: serializePairs ps)))).takeWhile
          isSchemeChar = sch := by
        refine takeWhile_append_stop _ _ _ hs2 ?_
        intro c hc
        rw [show ("://".data ++
          (host ++ (path ++ '?' :: serializePairs ps))).head? =
          some ':' from rfl] at hc
        cases hc
        decide
      have e3 : "://".data.isPrefixOf
          ("://".data ++ (host ++ (path ++ '?' :: serializePairs ps))) =
          true := by
        simp [List.isPrefixOf_iff_prefix]
      have e5 : (host ++ (path ++ '?' :: serializePairs ps)).takeWhile
          (fun c => !isHostEnd c) = host := by
        refine takeWhile_append_stop _ _ _
          (fun c hc => by rw [hh2 c hc]; rfl) ?_
        intro c hc
        obtain ⟨pt, hptt⟩ := hpt
        rw [hptt] at hc
        cases hc
        decide
      have eA : (path ++ '?' :: serializePairs ps).takeWhile
          (fun c => decide (c ≠ '#')) = path ++ '?' :: serializePairs ps := by
        refine List.takeWhile_eq_self_iff.mpr ?_
        intro c hc
        rcases List.mem_append.mp hc with hc | hc
        · simp [(hp3 c hc).2]
        · rcases List.mem_cons.mp hc with rfl | hc
          · decide
          · simp
            intro hcontra
            exact hsp_hash (hcontra ▸ hc)
      simp only [parseUrl, e1, List.drop_left, e3, if_true, ne_eq,
        not_false_eq_true, if_neg hs1]
      rw [List.drop_left' (show ("://".data : Str).length = 3 from rfl)]
      simp only [e5, if_neg hh1, List.drop_left, eA, eQ, if_pos rfl,
        if_neg hlenQ, edropQ, hqp, if_neg hp1]
      simp
    | some fr =>
      have hser : serializeUrl ⟨sch, host, path, some ps, some fr⟩ =
          sch ++ ("://".data ++ (host ++
            ((path ++ '?' :: serializePairs ps) ++ '#' :: fr))) := by
        unfold serializeUrl
        simp [List.append_assoc]
      rw [hser]
      have e1 : (sch ++ ("://".data ++ (host ++
          ((path ++ '?' :: serializePairs ps) ++ '#' :: fr)))).takeWhile
          isSchemeChar = sch := by
        refine takeWhile_append_stop _ _ _ hs2 ?_
        intro c hc
        rw [show ("://".data ++ (host ++
          ((path ++ '?' :: serializePairs ps) ++ '#' :: fr))).head? =
          some ':' from rfl] at hc
        cases hc
        decide
      have e3 : "://".data.isPrefixOf ("://".data ++ (host ++
          ((path ++ '?' :: serializePairs ps) ++ '#' :: fr))) = true := by
        simp [List.isPrefixOf_iff_prefix]
      have e5 : (host ++ ((path ++ '?' :: serializePairs ps) ++ '#' :: fr)).takeWhile
          (fun c => !isHostEnd c) = host := by
        refine takeWhile_append_stop _ _ _
          (fun c hc => by rw [hh2 c hc]; rfl) ?_
        intro c hc
        obtain ⟨pt, hptt⟩ := hpt
        rw [show ((path ++ '?' :: serializePairs ps) ++ '#' :: fr).head? =
          (path ++ ('?' :: serializePairs ps ++ '#' :: fr)).head? from by
            simp] at hc
        rw [hptt] at hc
        cases hc
        decide
      have eA : ((path ++ '?' :: serializePairs ps) ++ '#' :: fr).takeWhile
          (fun c => decide (c ≠ '#')) = path ++ '?' :: serializePairs ps := by
        refine takeWhile_append_stop _ _ _ ?_ ?_
        · intro c hc
          rcases List.mem_append.mp hc with hc | hc
          · simp [(hp3 c hc).2]
          · rcases List.mem_cons.mp hc with rfl | hc
            · decide
            · simp
              intro hcontra
              exact hsp_hash (hcontra ▸ hc)
        · intro c hc
          cases hc
          decide
      have hlenF : ¬((path ++ '?' :: serializePairs ps).length =
          ((path ++ '?' :: serializePairs ps) ++ '#' :: fr).length) := by
        simp
      have edropF : ((path ++ '?' :: serializePairs ps) ++ '#' :: fr).drop
          ((path ++ '?' :: serializePairs ps).length + 1) = fr := by
        rw [show (path ++ '?' :: serializePairs ps) ++ '#' :: fr =
          ((path ++ '?' :: serializePairs ps) ++ ['#']) ++ fr by simp]
        rw [List.drop_left' (by simp <;> omega)]
      simp only [parseUrl, e1, List.drop_left, e3, if_true, ne_eq,
        not_false_eq_true, if_neg hs1]
      rw [List.drop_left' (show ("://".data : Str).length = 3 from rfl)]
      simp only [e5, if_neg hh1, List.drop_left, eA, eQ, if_neg hlenF,
        edropF, if_neg hlenQ, edropQ, hqp, if_neg hp1]

theorem parseQuerySeg_wf (seg : Str) (p : Str × Str)
    (h : parseQuerySeg seg = some p) :
    (∀ c ∈ p.1, c ∈ seg ∧ c ≠ '=') ∧ (∀ c ∈ p.2, c ∈ seg) := by
  by_cases hs : seg = []
  · simp [parseQuerySeg, hs] at h
  · simp only [parseQuerySeg, if_neg hs, Option.some.injEq] at h
    subst h
    constructor
    · intro c hc
      refine ⟨(List.takeWhile_sublist _).subset hc, ?_⟩
      have := List.mem_takeWhile_imp hc
      simpa using this
    · intro c hc
      exact (List.drop_sublist _ _).subset ((List.drop_sublist _ _).subset hc)

theorem parseQueryPairs_wf (q : Str) (p : Str × Str)
    (hp : p ∈ parseQueryPairs q) :
    (∀ c ∈ p.1, c ∈ q ∧ c ≠ '&' ∧ c ≠ '=') ∧
    (∀ c ∈ p.2, c ∈ q ∧ c ≠ '&') := by
  unfold parseQueryPairs at hp
  obtain ⟨seg, hseg, hps⟩ := List.mem_filterMap.mp hp
  have hwf := parseQuerySeg_wf seg p hps
  have hnoamp := splitOnChar_seg_not_mem '&' q seg hseg
  constructor
  · intro c hc
    obtain ⟨hin, hneq⟩ := hwf.1 c hc
    exact ⟨splitOnChar_seg_sub '&' q seg hseg c hin,
      fun h => hnoamp (h ▸ hin), hneq⟩
  · intro c hc
    have hin := hwf.2 c hc
    exact ⟨splitOnChar_seg_sub '&' q seg hseg c hin, fun h => hnoamp (h ▸ hin)⟩

theorem parseUrl_wf (s : Str) (u : UrlObj) (h : parseUrl s = some u) :
    UrlWFq u := by
  simp only [parseUrl] at h
  split at h
  · cases h
  · rename_i h1
    split at h
    · rename_i h2
      split at h
      · cases h
      · rename_i h3
        injection h with h
        subst h
        unfold UrlWFq
        dsimp only
        refine ⟨h1, fun c hc => List.mem_takeWhile_imp hc, h3,
          ?_, ?_, ?_, ?_, ?_⟩
        · intro c hc
          have := List.mem_takeWhile_imp hc
          simpa using this
        · split
          · decide
          · rename_i hpp
            exact hpp
        · split
          · exact ⟨[], rfl⟩
          · rename_i hpp
            obtain ⟨c, t, hct⟩ := List.exists_cons_of_ne_nil hpp
            have hpre1 := List.takeWhile_prefix
              (l := List.takeWhile (fun c => decide (c ≠ '#'))
                (List.drop
                  (List.takeWhile (fun c => !isHostEnd c)
                    (List.drop 3 (List.drop
                      (List.takeWhile isSchemeChar s).length s))).length
                  (List.drop 3 (List.drop
                    (List.takeWhile isSchemeChar s).length s))))
              (p := fun c => decide (c ≠ '?'))
            have hpre2 := List.takeWhile_prefix
              (l := List.drop
                  (List.takeWhile (fun c => !isHostEnd c)
                    (List.drop 3 (List.drop
                      (List.takeWhile isSchemeChar s).length s))).length
                  (List.drop 3 (List.drop
                    (List.takeWhile isSchemeChar s).length s)))
              (p := fun c => decide (c ≠ '#'))
            have hpre := hpre1.trans hpre2
            rw [hct] at hpre
            obtain ⟨rest, hrest⟩ := hpre
            have hdw : List.drop
                (List.takeWhile (fun c => !isHostEnd c)
                  (List.drop 3 (List.drop
                    (List.takeWhile isSchemeChar s).length s))).length
                (List.drop 3 (List.drop
                  (List.takeWhile isSchemeChar s).length s)) =
                List.dropWhile (fun c => !isHostEnd c)
                  (List.drop 3 (List.drop
                    (List.takeWhile isSchemeChar s).length s)) :=
              drop_takeWhile _ _
            have hhead : (List.dropWhile (fun c => !isHostEnd c)
                (List.drop 3 (List.drop
                  (List.takeWhile isSchemeChar s).length s))).head? =
                some c := by
              rw [← hdw, ← hrest]
              rfl
            have hhe : (!isHostEnd c) = false :=
              head_dropWhile_not _ _ c hhead
            have hq : c ≠ '?' := by
              have := List.mem_takeWhile_imp
                (l := List.takeWhile (fun c => decide (c ≠ '#'))
                  (List.drop
                    (List.takeWhile (fun c => !isHostEnd c)
                      (List.drop 3 (List.drop
                        (List.takeWhile isSchemeChar s).length s))).length
                    (List.drop 3 (List.drop
                      (List.takeWhile isSchemeChar s).length s))))
                (show c ∈ _ from hct ▸ List.mem_cons_self c t)
              simpa using this
            have hh : c ≠ '#' := by
              have hmem : c ∈ List.takeWhile (fun c => decide (c ≠ '#'))
                  (List.drop
                    (List.takeWhile (fun c => !isHostEnd c)
                      (List.drop 3 (List.drop
                        (List.takeWhile isSchemeChar s).length s))).length
                    (List.drop 3 (List.drop
                      (List.takeWhile isSchemeChar s).length s))) :=
                hpre1.subset (hct ▸ List.mem_cons_self c t)
              have := List.mem_takeWhile_imp hmem
              simpa using this
            have hcslash : c = '/' := by
              simp [isHostEnd] at hhe
              by_cases h : c = '/'
              · exact h
              · exact absurd (hhe h (fun h2 => hq h2)) hh
            exact ⟨t, by rw [hct, hcslash]⟩
        · intro c hc
          split at hc
          · have : c = '/' := by simpa using hc
            subst this
            exact ⟨by decide, by decide⟩
          · constructor
            · have := List.mem_takeWhile_imp hc
              simpa using this
            · have hmem := (List.takeWhile_prefix _).subset hc
              have := List.mem_takeWhile_imp hmem
              simpa using this
        · intro ps hps
          split at hps
          · cases hps
          · injection hps with hps
            subst hps
            intro p hp
            have hwf := parseQueryPairs_wf _ p hp
            have hsubBH : ∀ c, c ∈ List.drop
                ((List.takeWhile (fun c => decide (c ≠ '?'))
                  (List.takeWhile (fun c => decide (c ≠ '#'))
                    (List.drop
                      (List.takeWhile (fun c => !isHostEnd c)
                        (List.drop 3 (List.drop
                          (List.takeWhile isSchemeChar s).length s))).length
                      (List.drop 3 (List.drop
                        (List.takeWhile isSchemeChar s).length s))))).length + 1)
                (List.takeWhile (fun c => decide (c ≠ '#'))
                  (List.drop
                    (List.takeWhile (fun c => !isHostEnd c)
                      (List.drop 3 (List.drop
                        (List.takeWhile isSchemeChar s).length s))).length
                    (List.drop 3 (List.drop
                      (List.takeWhile isSchemeChar s).length s)))) →
                c ≠ '#' := by
              intro c hc
              have hmem := (List.drop_sublist _ _).subset hc
              have := List.mem_takeWhile_imp hmem
              simpa using this
            constructor
            · intro c hc
              obtain ⟨hin, hneq⟩ := hwf.1 c hc
              exact ⟨hneq.1, hneq.2, hsubBH c hin⟩
            · intro c hc
              obtain ⟨hin, hneq⟩ := hwf.2 c hc
              exact ⟨hneq, hsubBH c hin⟩
    · cases h

theorem deleteUtm_wf (u : UrlObj) (h : UrlWFq u) : UrlWF (deleteUtm u) := by
  obtain ⟨h1, h2, h3, h4, h5, h6, h7, h8⟩ := h
  refine ⟨h1, h2, h3, h4, h5, h6, h7, ?_⟩
  intro ps' hps'
  cases hq : u.query with
  | none => simp [deleteUtm, hq] at hps'
  | some ps =>
    simp only [deleteUtm, hq] at hps'
    by_cases hf : ps.filter (fun p => !utmNames.contains p.1) = []
    · rw [if_pos hf] at hps'
      cases hps'
    · rw [if_neg hf] at hps'
      injection hps' with hps'
      subst hps'
      refine ⟨hf, ?_⟩
      intro p hp
      exact h8 ps hq p (List.mem_filter.mp hp).1

theorem deleteUtm_idem (u : UrlObj) :
    deleteUtm (deleteUtm u) = deleteUtm u := by
  cases hq : u.query with
  | none => simp [deleteUtm, hq]
  | some ps =>
    simp only [deleteUtm, hq]
    by_cases hf : ps.filter (fun p => !utmNames.contains p.1) = []
    · rw [if_pos hf]
    · simp only [if_neg hf]
      simp only [List.filter_filter]
      have hff : (ps.filter fun p =>
          (!utmNames.contains p.1) && (!utmNames.contains p.1)) =
          ps.filter fun p => !utmNames.contains p.1 := by
        simp [Bool.and_self]
      rw [hff, if_neg hf]

theorem cleanUrl_parse_fail (u : Str)
    (h : parseUrl (replaceAll "&amp;".data "&".data u) = none) :
    cleanUrl u = u := by
  simp only [cleanUrl, h]

theorem cleanUrl_idem_of_clean (u : Str)
    (h : isSubstr "&amp;".data (cleanUrl u) = false) :
    cleanUrl (cleanUrl u) = cleanUrl u := by
  cases hp : parseUrl (replaceAll "&amp;".data "&".data u) with
  | none =>
    have h1 : cleanUrl u = u := cleanUrl_parse_fail u hp
    rw [h1]
    exact h1
  | some v =>
    have hcu : cleanUrl u = serializeUrl (deleteUtm v) := by
      simp only [cleanUrl, hp]
    rw [hcu]
    have hwf : UrlWF (deleteUtm v) := deleteUtm_wf v (parseUrl_wf _ v hp)
    have hdec : replaceAll "&amp;".data "&".data
        (serializeUrl (deleteUtm v)) = serializeUrl (deleteUtm v) :=
      replaceAll_id_of_not_contains _ _ _ (hcu ▸ h) (by decide)
    have hparse : parseUrl (serializeUrl (deleteUtm v)) =
        some (deleteUtm v) := parseUrl_serializeUrl (deleteUtm v) hwf
    simp only [cleanUrl, hdec, hparse, deleteUtm_idem]

/-- **C4**: `cleanUrl` is robust (a parse failure of the decoded input
returns the input unchanged, the catch branch of utils.ts:10-13), but it
is NOT idempotent in general: the `&amp;`→`&` decode step re-runs on the
output, so an input containing `&amp;amp;` is decoded twice.  Amended
statement: on parse failure the input is returned unchanged, and
`cleanUrl` is idempotent on every input whose cleaned form no longer
contains `&amp;` — a sufficient condition only, not a characterization
(an unparseable input such as `"&amp;"` is returned unchanged on both
passes, hence is also idempotent while keeping its `&amp;`). -/
theorem C4_cleanUrl_amended (u : Str) :
    (parseUrl (replaceAll "&amp;".data "&".data u) = none →
      cleanUrl u = u) ∧
    (isSubstr "&amp;".data (cleanUrl u) = false →
      cleanUrl (cleanUrl u) = cleanUrl u) :=
  ⟨cleanUrl_parse_fail u, cleanUrl_idem_of_clean u⟩

/-- **C4** counterexample: `cleanUrl` is not idempotent on
`"https://x.com/a&amp;amp;b"` — the first pass decodes `&amp;amp;` to
`&amp;`, the second pass decodes it again to `&`. -/
theorem C4_counterexample :
    cleanUrl (cleanUrl "https://x.com/a&amp;amp;b".data) ≠
      cleanUrl "https://x.com/a&amp;amp;b".data := by decide

/-- **C4** witness: on `"nota url"` (not parseable as a URL) both
conjuncts of the amended statement apply concretely. -/
theorem C4_witness :
    cleanUrl "nota url".data = "nota url".data ∧
    cleanUrl (cleanUrl "nota url".data) = cleanUrl "nota url".data :=
  ⟨(C4_cleanUrl_amended "nota url".data).1 (by decide),
   (C4_cleanUrl_amended "nota url".data).2 (by decide)⟩

theorem countPersists_append (l1 l2 : List Effect) :
    countPersists (l1 ++ l2) = countPersists l1 + countPersists l2 := by
  simp [countPersists, List.countP_append]

theorem countPersists_nil : countPersists [] = 0 := rfl

theorem listLoop_spec (a : Nat) :
    ∀ (pages : List (List Str)) (st : St), st.k ≤ a →
    (∃ st2 ids, listLoop (some a) st pages = .ok (st2, ids) ∧
      listLoop none st pages = .ok (st2, ids) ∧ st2.k ≤ a ∧
      st2.saved = st.saved ∧
      countPersists st2.effects = countPersists st.effects ∧
      st2.prog = st.prog) ∨
    (∃ st2, listLoop (some a) st pages = .error (st2, "Stopped".data) ∧
      st2.k = a + 1 ∧ st2.saved = st.saved ∧
      countPersists st2.effects = countPersists st.effects ∧
      st2.prog = st.prog) := by
  intro pages
  induction pages with
  | nil =>
    intro st hk
    left
    exact ⟨st, [], rfl, rfl, hk, rfl, rfl, rfl⟩
  | cons page rest ih =>
    intro st hk
    by_cases hak : a ≤ st.k
    · right
      have hs : sigAborted (some a) st.k = true := by
        simp [sigAborted, hak]
      refine ⟨{ st with k := st.k + 1 }, ?_, by dsimp; omega, rfl, rfl, rfl⟩
      simp [listLoop, checkSignal, hs]
    · have hs : sigAborted (some a) st.k = false := by
        simp only [sigAborted, decide_eq_false_iff_not]
        omega
      rcases ih { st with k := st.k + 1, effects := st.effects ++ [Effect.listPage page] } (by dsimp; omega) with
        ⟨st3, ids, h1, h2, hk3, hsv, hcp, hpr⟩ | ⟨st3, h1, hk3, hsv, hcp, hpr⟩
      · left
        refine ⟨st3, page ++ ids, ?_, ?_, hk3, by simpa using hsv, ?_,
          by simpa using hpr⟩
        · simp [listLoop, checkSignal, hs, h1]
        · simp [listLoop, checkSignal, sigAborted, h2]
        · rw [hcp]
          simp [countPersists_append, countPersists]
      · right
        refine ⟨st3, ?_, hk3, by simpa using hsv, ?_, by simpa using hpr⟩
        · simp [listLoop, checkSignal, hs, h1]
        · rw [hcp]
          simp [countPersists_append, countPersists]

theorem parseLoop_spec (env : OrchEnv) (a : Nat) :
    ∀ (msgs : List GmailMessage) (st : St) (total i : Nat)
      (acc : List NewJob), st.k ≤ a →
    (∃ st2 jobs, parseLoop env (some a) st total i acc msgs = .ok (st2, jobs) ∧
      parseLoop env none st total i acc msgs = .ok (st2, jobs) ∧ st2.k ≤ a ∧
      st2.saved = st.saved ∧
      countPersists st2.effects = countPersists st.effects ∧
      st2.prog.newJobsCount = st.prog.newJobsCount) ∨
    (∃ st2, parseLoop env (some a) st total i acc msgs =
        .error (st2, "Stopped".data) ∧
      st2.k = a + 1 ∧ st2.saved = st.saved ∧
      countPersists st2.effects = countPersists st.effects ∧
      st2.prog.newJobsCount = st.prog.newJobsCount) := by
  intro msgs
  induction msgs with
  | nil =>
    intro st total i acc hk
    left
    exact ⟨st, acc, rfl, rfl, hk, rfl, rfl, rfl⟩
  | cons m rest ih =>
    intro st total i acc hk
    by_cases hak : a ≤ st.k
    · right
      have hs : sigAborted (some a) st.k = true := by
        simp [sigAborted, hak]
      refine ⟨{ st with k := st.k + 1 }, ?_, by dsimp; omega, rfl, rfl, rfl⟩
      simp [parseLoop, checkSignal, hs]
    · have hs : sigAborted (some a) st.k = false := by
        simp only [sigAborted, decide_eq_false_iff_not]
        omega
      rcases ih { st with k := st.k + 1, prog := { st.prog with current := i + 1, message := "Parsed ".data ++ natToStr (i + 1) ++ "/".data ++ natToStr total ++ " emails (".data ++ natToStr (acc ++ (parseEmail env.dom env.decode env.impl m).map fun pj => toNewJob pj m.id (getMessageDate env.dateParseIso env.msParseIso env.nowIso m)).length ++ " jobs found)".data } } total (i + 1) (acc ++ (parseEmail env.dom env.decode env.impl m).map fun pj => toNewJob pj m.id (getMessageDate env.dateParseIso env.msParseIso env.nowIso m)) (by dsimp; omega) with
        ⟨st3, jobs, h1, h2, hk3, hsv, hcp, hnj⟩ | ⟨st3, h1, hk3, hsv, hcp, hnj⟩
      · left
        simp only [List.append_assoc, List.cons_append, List.nil_append,
          List.length_append, List.length_map] at h1 h2
        refine ⟨st3, jobs, ?_, ?_, hk3, by simpa using hsv,
          by simpa using hcp, by simpa using hnj⟩
        · simp [parseLoop, checkSignal, hs, h1]
        · simp [parseLoop, checkSignal, sigAborted, h2]
      · right
        simp only [List.append_assoc, List.cons_append, List.nil_append,
          List.length_append, List.length_map] at h1
        refine ⟨st3, ?_, hk3, by simpa using hsv,
          by simpa using hcp, by simpa using hnj⟩
        simp [parseLoop, checkSignal, hs, h1]

theorem fetchLoop_spec (env : OrchEnv) (a : Nat) :
    ∀ (n : Nat) (ids : List Str), ids.length ≤ n →
    ∀ (st : St) (total fetched : Nat), st.k ≤ a →
    (∃ st2 msgs, fetchLoop env (some a) st total fetched ids = .ok (st2, msgs) ∧
      fetchLoop env none st total fetched ids = .ok (st2, msgs) ∧ st2.k ≤ a ∧
      st2.saved = st.saved ∧
      countPersists st2.effects = countPersists st.effects ∧
      st2.prog.newJobsCount = st.prog.newJobsCount) ∨
    (∃ st2, fetchLoop env (some a) st total fetched ids =
        .error (st2, "Stopped".data) ∧
      st2.k = a + 1 ∧ st2.saved = st.saved ∧
      countPersists st2.effects = countPersists st.effects ∧
      st2.prog.newJobsCount = st.prog.newJobsCount) := by
  intro n
  induction n with
  | zero =>
    intro ids hlen st total fetched hk
    have hnil : ids = [] := List.eq_nil_of_length_eq_zero (Nat.le_zero.mp hlen)
    subst hnil
    left
    exact ⟨st, [], by simp [fetchLoop], by simp [fetchLoop], hk, rfl, rfl, rfl⟩
  | succ nn ih =>
    intro ids hlen st total fetched hk
    cases ids with
    | nil =>
      left
      exact ⟨st, [], by simp [fetchLoop], by simp [fetchLoop], hk, rfl, rfl, rfl⟩
    | cons id0 restIds =>
      by_cases hak : a ≤ st.k
      · right
        have hs : sigAborted (some a) st.k = true := by
          simp [sigAborted, hak]
        refine ⟨{ st with k := st.k + 1 }, ?_, by dsimp; omega, rfl, rfl, rfl⟩
        simp [fetchLoop, checkSignal, hs]
      · have hs : sigAborted (some a) st.k = false := by
          simp only [sigAborted, decide_eq_false_iff_not]
          omega
        have hlen2 : ((id0 :: restIds).drop 5).length ≤ nn := by
          simp only [List.length_drop, List.length_cons] at *
          omega
        rcases ih ((id0 :: restIds).drop 5) hlen2 { st with k := st.k + 1, effects := st.effects ++ [Effect.fetchBatch ((id0 :: restIds).take 5)], prog := { st.prog with current := fetched + ((id0 :: restIds).take 5).length, total := total, message := "Fetching emails... ".data ++ natToStr (fetched + ((id0 :: restIds).take 5).length) ++ "/".data ++ natToStr total } } total (fetched + ((id0 :: restIds).take 5).length) (by dsimp; omega) with
          ⟨st3, msgs2, h1, h2, hk3, hsv, hcp, hnj⟩ | ⟨st3, h1, hk3, hsv, hcp, hnj⟩
        · left
          simp at h1 h2
          refine ⟨st3, ((id0 :: restIds).take 5).map env.fetchMessage ++ msgs2,
            ?_, ?_, hk3, by simpa using hsv, ?_, by simpa using hnj⟩
          · simp [fetchLoop, checkSignal, hs, h1]
          · simp [fetchLoop, checkSignal, sigAborted, h2]
          · rw [hcp]
            simp [countPersists_append, countPersists]
        · right
          simp at h1
          refine ⟨st3, ?_, hk3, by simpa using hsv, ?_, by simpa using hnj⟩
          · simp [fetchLoop, checkSignal, hs, h1]
          · rw [hcp]
            simp [countPersists_append, countPersists]

theorem saveLoop_spec (env : OrchEnv) (a : Nat)
    (hper : ∀ j, env.persistOk j = true) :
    ∀ (js : List NewJob) (st : St) (total i : Nat) (cache : DedupCache),
      st.k ≤ a → st.saved = countPersists st.effects →
      st.prog.newJobsCount = st.saved →
    (∃ st2 c2, saveLoop env (some a) st total i cache js = .ok (st2, c2) ∧
      saveLoop env none st total i cache js = .ok (st2, c2) ∧ st2.k ≤ a ∧
      st2.saved = countPersists st2.effects ∧
      st2.prog.newJobsCount = st2.saved) ∨
    (∃ st2, saveLoop env (some a) st total i cache js =
        .error (st2, "Stopped".data) ∧
      st2.k = a + 1 ∧ st2.saved = countPersists st2.effects ∧
      st2.prog.newJobsCount = st2.saved) := by
  intro js
  induction js with
  | nil =>
    intro st total i cache hk hg1 hg2
    left
    exact ⟨st, cache, rfl, rfl, hk, hg1, hg2⟩
  | cons j rest ih =>
    intro st total i cache hk hg1 hg2
    by_cases hak : a ≤ st.k
    · right
      have hs : sigAborted (some a) st.k = true := by
        simp [sigAborted, hak]
      refine ⟨{ st with k := st.k + 1 }, ?_, by dsimp; omega,
        by simpa using hg1, by simpa using hg2⟩
      simp [saveLoop, checkSignal, hs]
    · have hs : sigAborted (some a) st.k = false := by
        simp only [sigAborted, decide_eq_false_iff_not]
        omega
      by_cases hjj : DedupCache.hasJob cache (safeJob j) = true
      · rcases ih { st with k := st.k + 1, prog := { st.prog with current := i + 1, newJobsCount := st.saved, message := "Saving jobs... ".data ++ natToStr (i + 1) ++ "/".data ++ natToStr total ++ " (".data ++ natToStr st.saved ++ " new)".data } } total (i + 1) cache (by dsimp; omega) (by simpa using hg1) (by dsimp) with
          ⟨st3, c2, h1, h2, hk3, hgg1, hgg2⟩ | ⟨st3, h1, hk3, hgg1, hgg2⟩
        · left
          simp at h1 h2
          exact ⟨st3, c2, by simp [saveLoop, checkSignal, hs,
              addJobIfNotExistsE, hper, hjj, h1],
            by simp [saveLoop, checkSignal, sigAborted,
              addJobIfNotExistsE, hper, hjj, h2], hk3, hgg1, hgg2⟩
        · right
          simp at h1
          exact ⟨st3, by simp [saveLoop, checkSignal, hs,
              addJobIfNotExistsE, hper, hjj, h1], hk3, hgg1, hgg2⟩
      · have hgnew : ({ st with k := st.k + 1, saved := st.saved + 1, effects := st.effects ++ [Effect.persist (safeJob j)] } : St).saved = countPersists ({ st with k := st.k + 1, saved := st.saved + 1, effects := st.effects ++ [Effect.persist (safeJob j)] } : St).effects := by
          dsimp
          rw [countPersists_append, ← hg1]
          simp [countPersists]
        rcases ih { st with k := st.k + 1, saved := st.saved + 1, effects := st.effects ++ [Effect.persist (safeJob j)], prog := { st.prog with current := i + 1, newJobsCount := st.saved + 1, message := "Saving jobs... ".data ++ natToStr (i + 1) ++ "/".data ++ natToStr total ++ " (".data ++ natToStr (st.saved + 1) ++ " new)".data } } total (i + 1) (cache.addJobKeys (safeJob j)) (by dsimp; omega) (by simpa using hgnew) (by dsimp) with
          ⟨st3, c2, h1, h2, hk3, hgg1, hgg2⟩ | ⟨st3, h1, hk3, hgg1, hgg2⟩
        · left
          simp at h1 h2
          exact ⟨st3, c2, by simp [saveLoop, checkSignal, hs,
              addJobIfNotExistsE, hper, hjj, h1],
            by simp [saveLoop, checkSignal, sigAborted,
              addJobIfNotExistsE, hper, hjj, h2], hk3, hgg1, hgg2⟩
        · right
          simp at h1
          exact ⟨st3, by simp [saveLoop, checkSignal, hs,
              addJobIfNotExistsE, hper, hjj, h1], hk3, hgg1, hgg2⟩

theorem archiveLoop_spec (env : OrchEnv) (a : Nat) :
    ∀ (n : Nat) (ids : List Str), ids.length ≤ n →
    ∀ (st : St) (total processed : Nat), st.k ≤ a →
    (∃ st2, archiveLoop env (some a) st total processed ids = .ok st2 ∧
      archiveLoop env none st total processed ids = .ok st2 ∧ st2.k ≤ a ∧
      st2.saved = st.saved ∧
      countPersists st2.effects = countPersists st.effects ∧
      st2.prog.newJobsCount = st.prog.newJobsCount) ∨
    (∃ st2, archiveLoop env (some a) st total processed ids =
        .error (st2, "Stopped".data) ∧
      st2.k = a + 1 ∧ st2.saved = st.saved ∧
      countPersists st2.effects = countPersists st.effects ∧
      st2.prog.newJobsCount = st.prog.newJobsCount) := by
  intro n
  induction n with
  | zero =>
    intro ids hlen st total processed hk
    have hnil : ids = [] := List.eq_nil_of_length_eq_zero (Nat.le_zero.mp hlen)
    subst hnil
    left
    exact ⟨st, by simp [archiveLoop], by simp [archiveLoop], hk, rfl, rfl, rfl⟩
  | succ nn ih =>
    intro ids hlen st total processed hk
    cases ids with
    | nil =>
      left
      exact ⟨st, by simp [archiveLoop], by simp [archiveLoop], hk, rfl, rfl, rfl⟩
    | cons id0 restIds =>
      by_cases hak : a ≤ st.k
      · right
        have hs : sigAborted (some a) st.k = true := by
          simp [sigAborted, hak]
        refine ⟨{ st with k := st.k + 1 }, ?_, by dsimp; omega, rfl, rfl, rfl⟩
        simp [archiveLoop, checkSignal, hs]
      · have hs : sigAborted (some a) st.k = false := by
          simp only [sigAborted, decide_eq_false_iff_not]
          omega
        have hlen2 : ((id0 :: restIds).drop 5).length ≤ nn := by
          simp only [List.length_drop, List.length_cons] at *
          omega
        rcases ih ((id0 :: restIds).drop 5) hlen2 { st with k := st.k + 1, effects := st.effects ++ [Effect.archiveBatch ((id0 :: restIds).take 5)], prog := { st.prog with current := min (processed + 5) total, message := "Archiving emails... ".data ++ natToStr (min (processed + 5) total) ++ "/".data ++ natToStr total } } total (processed + 5) (by dsimp; omega) with
          ⟨st3, h1, h2, hk3, hsv, hcp, hnj⟩ | ⟨st3, h1, hk3, hsv, hcp, hnj⟩
        · left
          simp at h1 h2
          refine ⟨st3, ?_, ?_, hk3, by simpa using hsv, ?_, by simpa using hnj⟩
          · simp [archiveLoop, checkSignal, hs, h1]
          · simp [archiveLoop, checkSignal, sigAborted, h2]
          · rw [hcp]
            simp [countPersists_append, countPersists]
        · right
          simp at h1
          refine ⟨st3, ?_, hk3, by simpa using hsv, ?_, by simpa using hnj⟩
          · simp [archiveLoop, checkSignal, hs, h1]
          · rw [hcp]
            simp [countPersists_append, countPersists]

theorem fetchEmailsTry_spec (env : OrchEnv) (a : Nat)
    (hper : ∀ j, env.persistOk j = true) :
    (∃ st, fetchEmailsTry env (some a) = .ok st ∧
      fetchEmailsTry env none = .ok st ∧ st.k ≤ a ∧
      st.prog.phase = Phase.done ∧
      st.prog.newJobsCount = countPersists st.effects) ∨
    (∃ st, fetchEmailsTry env (some a) = .error (st, "Stopped".data) ∧
      st.k = a + 1 ∧ st.saved = countPersists st.effects ∧
      st.prog.newJobsCount = st.saved) := by
  rcases listLoop_spec a env.pages ⟨0, 0, ⟨Phase.listing, 0, 0, "Searching for job alert emails...".data, 0⟩, []⟩ (Nat.zero_le a) with
    ⟨stA, ids, hL1, hL2, hkA, hsvA, hcpA, hprA⟩ | ⟨stA, hL1, hkA, hsvA, hcpA, hprA⟩
  · -- listing succeeded
    simp [countPersists_nil] at hL1 hL2 hsvA hcpA
    have hnjA : stA.prog.newJobsCount = 0 := by rw [hprA]
    by_cases hak1 : a ≤ stA.k
    · -- aborted at the post-listing check
      right
      have hc1e : checkSignal (some a) stA =
          .error ({ stA with k := stA.k + 1 }, "Stopped".data) := by
        have hs : sigAborted (some a) stA.k = true := by
          simp [sigAborted, hak1]
        simp [checkSignal, hs]
      refine ⟨{ stA with k := stA.k + 1 }, ?_, by dsimp; omega, ?_, ?_⟩
      · simp [fetchEmailsTry, hL1, hc1e]
      · dsimp
        omega
      · dsimp
        omega
    · have hc1 : checkSignal (some a) stA = .ok { stA with k := stA.k + 1 } := by
        have hs : sigAborted (some a) stA.k = false := by
          simp only [sigAborted, decide_eq_false_iff_not]
          omega
        simp [checkSignal, hs]
      by_cases hids : ids = []
      · -- no messages: immediate done
        subst hids
        left
        refine ⟨{ stA with k := stA.k + 1, prog := ⟨Phase.done, 0, 0, "No job alert emails found.".data, 0⟩ }, ?_, ?_, by dsimp; omega, rfl, ?_⟩
        · simp [fetchEmailsTry, hL1, hc1]
        · simp [fetchEmailsTry, hL2, checkSignal, sigAborted]
        · dsimp
          omega
      · -- fetching phase
        rcases fetchLoop_spec env a ids.length ids (Nat.le_refl _) { stA with k := stA.k + 1, prog := ⟨Phase.fetching, 0, ids.length, "Fetching ".data ++ natToStr ids.length ++ " emails...".data, 0⟩ } ids.length 0 (by dsimp; omega) with
          ⟨stC, messages, hF1, hF2, hkC, hsvC, hcpC, hnjC⟩ | ⟨stC, hF1, hkC, hsvC, hcpC, hnjC⟩
        · -- fetch succeeded
          simp at hF1 hF2 hsvC hcpC hnjC
          by_cases hak2 : a ≤ stC.k
          · right
            have hc2e : checkSignal (some a) stC =
                .error ({ stC with k := stC.k + 1 }, "Stopped".data) := by
              have hs : sigAborted (some a) stC.k = true := by
                simp [sigAborted, hak2]
              simp [checkSignal, hs]
            refine ⟨{ stC with k := stC.k + 1 }, ?_, by dsimp; omega, ?_, ?_⟩
            · simp [fetchEmailsTry, hL1, hc1, hids, hF1, hc2e]
            · dsimp
              omega
            · dsimp
              omega
          · have hc2 : checkSignal (some a) stC = .ok { stC with k := stC.k + 1 } := by
              have hs : sigAborted (some a) stC.k = false := by
                simp only [sigAborted, decide_eq_false_iff_not]
                omega
              simp [checkSignal, hs]
            rcases parseLoop_spec env a messages { stC with k := stC.k + 1, prog := ⟨Phase.parsing, 0, messages.length, "Parsing job listings from emails...".data, 0⟩ } messages.length 0 [] (by dsimp; omega) with
              ⟨stE, allJobs, hP1, hP2, hkE, hsvE, hcpE, hnjE⟩ | ⟨stE, hP1, hkE, hsvE, hcpE, hnjE⟩
            · -- parsing succeeded
              simp at hP1 hP2 hsvE hcpE hnjE
              by_cases hak3 : a ≤ stE.k
              · right
                have hc3e : ∀ pr : FetchProgress, checkSignal (some a) { stE with prog := pr } = .error ({ stE with k := stE.k + 1, prog := pr }, "Stopped".data) := by
                  intro pr
                  have hs : sigAborted (some a) stE.k = true := by
                    simp [sigAborted, hak3]
                  simp [checkSignal, hs]
                refine ⟨{ stE with k := stE.k + 1, prog := ⟨Phase.saving, 0, allJobs.length, "Loading dedup cache...".data, 0⟩ }, ?_, by dsimp; omega, ?_, ?_⟩
                · simp [fetchEmailsTry, hL1, hc1, hids, hF1, hc2, hP1, hc3e]
                · dsimp
                  omega
                · dsimp
                  omega
              · have hc3 : ∀ pr : FetchProgress, checkSignal (some a) { stE with prog := pr } = .ok { stE with k := stE.k + 1, prog := pr } := by
                  intro pr
                  have hs : sigAborted (some a) stE.k = false := by
                    simp only [sigAborted, decide_eq_false_iff_not]
                    omega
                  simp [checkSignal, hs]
                rcases saveLoop_spec env a hper allJobs { stE with k := stE.k + 1, prog := ⟨Phase.saving, 0, allJobs.length, "Saving ".data ++ natToStr allJobs.length ++ " jobs to database...".data, 0⟩ } allJobs.length 0 (DedupCache.fromJobs (loadSnapshot env.existingJobs)) (by dsimp; omega) (by dsimp; omega) (by dsimp; omega) with
                  ⟨stG, c2, hS1, hS2, hkG, hgG1, hgG2⟩ | ⟨stG, hS1, hkG, hgG1, hgG2⟩
                · -- saving succeeded
                  simp at hS1 hS2
                  by_cases harch : env.shouldArchive = true
                  · by_cases hak4 : a ≤ stG.k
                    · right
                      have hc4e : checkSignal (some a) stG =
                          .error ({ stG with k := stG.k + 1 }, "Stopped".data) := by
                        have hs : sigAborted (some a) stG.k = true := by
                          simp [sigAborted, hak4]
                        simp [checkSignal, hs]
                      refine ⟨{ stG with k := stG.k + 1 }, ?_, by dsimp; omega, by simpa using hgG1, by simpa using hgG2⟩
                      simp [fetchEmailsTry, hL1, hc1, hids, hF1, hc2, hP1, hc3, hS1, harch, hc4e]
                    · have hc4 : checkSignal (some a) stG = .ok { stG with k := stG.k + 1 } := by
                        have hs : sigAborted (some a) stG.k = false := by
                          simp only [sigAborted, decide_eq_false_iff_not]
                          omega
                        simp [checkSignal, hs]
                      rcases archiveLoop_spec env a ids.length ids (Nat.le_refl _) { stG with k := stG.k + 1, prog := ⟨Phase.archiving, 0, ids.length, "Archiving ".data ++ natToStr ids.length ++ " emails...".data, stG.saved⟩ } ids.length 0 (by dsimp; omega) with
                        ⟨stI, hA1, hA2, hkI, hsvI, hcpI, hnjI⟩ | ⟨stI, hA1, hkI, hsvI, hcpI, hnjI⟩
                      · -- archiving succeeded: done
                        simp at hA1 hA2 hsvI hcpI hnjI
                        left
                        refine ⟨{ stI with prog := ⟨Phase.done, allJobs.length, allJobs.length, doneMsg stI.saved env.shouldArchive ids.length, stI.saved⟩ }, ?_, ?_, by dsimp; omega, rfl, ?_⟩
                        · simp [fetchEmailsTry, hL1, hc1, hids, hF1, hc2, hP1, hc3, hS1, harch, hc4, hA1]
                        · simp [fetchEmailsTry, hL2, checkSignal, sigAborted, hids, hF2, hP2, hS2, harch, hA2]
                        · dsimp
                          omega
                      · -- aborted inside archiving
                        simp at hA1 hsvI hcpI hnjI
                        right
                        refine ⟨stI, ?_, hkI, ?_, ?_⟩
                        · simp [fetchEmailsTry, hL1, hc1, hids, hF1, hc2, hP1, hc3, hS1, harch, hc4, hA1]
                        · omega
                        · omega
                  · -- no archiving: done directly after saving
                    have harchF : env.shouldArchive = false :=
                      Bool.eq_false_iff.mpr harch
                    left
                    refine ⟨{ stG with prog := ⟨Phase.done, allJobs.length, allJobs.length, doneMsg stG.saved env.shouldArchive ids.length, stG.saved⟩ }, ?_, ?_, by dsimp; omega, rfl, ?_⟩
                    · simp [fetchEmailsTry, hL1, hc1, hids, hF1, hc2, hP1, hc3, hS1, harchF]
                    · simp [fetchEmailsTry, hL2, checkSignal, sigAborted, hids, hF2, hP2, hS2, harchF]
                    · dsimp
                      omega
                · -- aborted inside saving
                  simp at hS1
                  right
                  refine ⟨stG, ?_, hkG, hgG1, hgG2⟩
                  simp [fetchEmailsTry, hL1, hc1, hids, hF1, hc2, hP1, hc3, hS1]
            · -- aborted inside parsing
              simp at hP1 hsvE hcpE hnjE
              right
              refine ⟨stE, ?_, hkE, ?_, ?_⟩
              · simp [fetchEmailsTry, hL1, hc1, hids, hF1, hc2, hP1]
              · omega
              · omega
        · -- aborted inside fetching
          simp at hF1 hsvC hcpC hnjC
          right
          refine ⟨stC, ?_, hkC, ?_, ?_⟩
          · simp [fetchEmailsTry, hL1, hc1, hids, hF1]
          · omega
          · omega
  · -- aborted inside listing
    simp [countPersists_nil] at hL1 hsvA hcpA
    right
    have hnjA : stA.prog.newJobsCount = 0 := by rw [hprA]
    refine ⟨stA, ?_, hkA, ?_, ?_⟩
    · simp [fetchEmailsTry, hL1]
    · omega
    · omega

/-- **C8**: the orchestrator checks the cancellation signal before each
phase and between iterations of every inner loop (per page, per 5-batch
in Fetching/Archiving, per item in Parsing/Saving; checks are numbered
in execution order and signal `some a` is observed aborted from check
`a` on).  With a store that accepts every persist, aborting at any check
index `a` yields a run that ends in phase `done` (not the generic
`error` phase), whose terminal `newJobsCount` equals the number of
persist effects actually performed, that executes at most one check
beyond the abort index (`k ≤ a + 1`: the stop takes effect at the very
next check, within one batch/item), and that either reports the clean
stop message with the exact saved count or had already passed every
check and completed identically to an uncancelled run. -/
theorem C8_cancellation (env : OrchEnv) (a : Nat)
    (hper : ∀ j, env.persistOk j = true) :
    (fetchEmailsRun env (some a)).prog.phase = Phase.done ∧
    (fetchEmailsRun env (some a)).prog.newJobsCount =
      countPersists (fetchEmailsRun env (some a)).effects ∧
    (fetchEmailsRun env (some a)).k ≤ a + 1 ∧
    ((fetchEmailsRun env (some a)).prog.message =
        stoppedMsg (countPersists (fetchEmailsRun env (some a)).effects) ∨
      fetchEmailsRun env (some a) = fetchEmailsRun env none) := by
  rcases fetchEmailsTry_spec env a hper with
    ⟨st, h1, h2, hk, hph, hnj⟩ | ⟨st, h1, hk, hg, hnj⟩
  · have hr : fetchEmailsRun env (some a) = st := by
      simp [fetchEmailsRun, h1]
    have hr2 : fetchEmailsRun env none = st := by
      simp [fetchEmailsRun, h2]
    rw [hr, hr2]
    exact ⟨hph, hnj, by omega, Or.inr rfl⟩
  · have hsig : sigAborted (some a) st.k = true := by
      simp [sigAborted, hk]
    have hr : fetchEmailsRun env (some a) =
        { st with prog :=
          { st.prog with phase := .done, message := stoppedMsg st.saved } } := by
      simp [fetchEmailsRun, h1, hsig]
    rw [hr]
    refine ⟨rfl, ?_, ?_, Or.inl ?_⟩
    · dsimp
      omega
    · dsimp
      omega
    · dsimp
      rw [← hg]

/-- **C8** witness: the concrete environment `envC` (one page, one
message, always-accepting store, archiving on), aborted from check
index 2. -/
theorem C8_witness :
    (fetchEmailsRun envC (some 2)).prog.phase = Phase.done ∧
    (fetchEmailsRun envC (some 2)).prog.newJobsCount =
      countPersists (fetchEmailsRun envC (some 2)).effects ∧
    (fetchEmailsRun envC (some 2)).k ≤ 2 + 1 ∧
    ((fetchEmailsRun envC (some 2)).prog.message =
        stoppedMsg (countPersists (fetchEmailsRun envC (some 2)).effects) ∨
      fetchEmailsRun envC (some 2) = fetchEmailsRun envC none) :=
  C8_cancellation envC 2 (fun _ => rfl)
